import Mathlib

/-!
# Verification of the minimal graphlib task runner

Shallow embedding of `src/graphlib_task_runner_min.py`: a parallel task
runner that builds a `graphlib.TopologicalSorter` over a task dictionary,
then repeatedly drains the ready set, submits every ready task to a thread
pool, waits for the whole batch to complete (`as_completed`), and marks each
completion `done` before draining again.

Task actions are opaque zero-argument computations producing a value or
raising; we model them as a fixed `Outcome`.  The nondeterministic order in
which the futures of one batch complete is modelled by a schedule parameter
that permutes each batch's futures; the canonical run `runD` uses submission
order.  The run records an event trace (`drain` = `get_ready()` call,
`sub n` = submission of task `n` to the pool, `fin n` = successful
completion processed by the controller), mirroring the script's `ran` and
`done` lists and its `results` dictionary.
-/

set_option maxHeartbeats 1000000

namespace TaskRunner

abbrev Name := String

/-- Outcome of a task's zero-argument action: return a value or raise. -/
inductive Outcome where
  | ok (v : Nat)
  | fail (e : Nat)
deriving DecidableEq, Repr

/-- `Task` descriptor from the script: `name`, `action`, `deps`. -/
structure Task where
  name : Name
  action : Outcome
  deps : List Name
deriving DecidableEq, Repr

/-- `by_name = {t.name: t for t in tasks}`: a later duplicate overwrites an
earlier one, so lookup finds the last task with the given name. -/
def byName (tasks : List Task) (n : Name) : Option Task :=
  tasks.reverse.find? (fun t => decide (t.name = n))

/-- Python dict insertion: overwrite the value in place if the key exists
(keeping the key's original position), otherwise append. -/
def dictInsert (d : List (Name × List Name)) (k : Name) (v : List Name) :
    List (Name × List Name) :=
  if d.any (fun p => decide (p.1 = k)) then
    d.map (fun p => if p.1 = k then (k, v) else p)
  else d ++ [(k, v)]

/-- The dict comprehension `{t.name: set(t.deps) for t in tasks}` handed to
`TopologicalSorter`. -/
def graphOf (tasks : List Task) : List (Name × List Name) :=
  tasks.foldl (fun d t => dictInsert d t.name t.deps) []

/-- Graph construction from bare `(name, deps)` pairs; `graphOf` factors
through it, showing construction depends only on the declared structure. -/
def graphOfPairs (ps : List (Name × List Name)) : List (Name × List Name) :=
  ps.foldl (fun d p => dictInsert d p.1 p.2) []

/-- Predecessors of a node in the sorter's graph; a name that is not a key
(a dependency no task declares) is an auto-added node with no
predecessors, exactly as `TopologicalSorter.add` creates it. -/
def depsOf (g : List (Name × List Name)) (n : Name) : List Name :=
  ((g.find? (fun p => decide (p.1 = n))).map (fun p => p.2)).getD []

/-- Reverse adjacency: the nodes that list `c` among their predecessors, in
graph order (`TopologicalSorter` appends successors as edges are added). -/
def succsOf (g : List (Name × List Name)) (c : Name) : List Name :=
  (g.filter (fun p => decide (c ∈ p.2))).map (fun p => p.1)

/-- Insert a node if new (dict-of-nodes insertion order). -/
def addNode (ns : List Name) (n : Name) : List Name :=
  if n ∈ ns then ns else ns ++ [n]

/-- All nodes of the sorter, in insertion order: each key, then its
predecessors (auto-added when not seen before). -/
def nodesOf (g : List (Name × List Name)) : List Name :=
  g.foldl (fun ns p => p.2.foldl addNode (addNode ns p.1)) []

/-- The nodes that are ready relative to a set of completed nodes: not yet
completed and all predecessors completed (zero remaining in-degree). -/
def levelFilter (g : List (Name × List Name)) (done : List Name) : List Name :=
  (nodesOf g).filter
    (fun n => decide (n ∉ done) && (depsOf g n).all (fun d => decide (d ∈ done)))

/-- Kahn-style elimination: repeatedly move every zero-in-degree node to the
done list.  `TopologicalSorter.prepare()` raises `CycleError` exactly when
this process cannot reach every node. -/
def kahnClosure (g : List (Name × List Name)) : Nat → List Name → List Name
  | 0, done => done
  | f+1, done =>
    let r := levelFilter g done
    if r = [] then done else kahnClosure g f (done ++ r)

/-- Cycle check performed by `prepare()`: some node survives Kahn
elimination. -/
def hasCycle (g : List (Name × List Name)) : Bool :=
  (nodesOf g).any (fun n => decide (n ∉ kahnClosure g (nodesOf g).length []))

/-- One dependency edge: `b` is a declared dependency (predecessor) of `a`. -/
def depRel (g : List (Name × List Name)) (a b : Name) : Prop := b ∈ depsOf g a

/-- Observable events of one run: `drain` is a `ts.get_ready()` call, `sub n`
a `pool.submit` of task `n`, `fin n` the controller processing `n`'s
successful completion (`results[n] = ...; done.append(n); ts.done(n)`). -/
inductive Ev where
  | drain
  | sub (n : Name)
  | fin (n : Name)
deriving DecidableEq, Repr

/-- Exceptions that can escape `run`: `CycleError` from `prepare()`, a
`KeyError` from `by_name[name]` on an undeclared dependency, or a task
action's own exception re-raised by `fut.result()`. -/
inductive RunErr where
  | cycle
  | keyErr (n : Name)
  | taskErr (n : Name) (e : Nat)
deriving DecidableEq, Repr

/-- State observable at the end of a run: the script's `ran` and `done`
lists and `results` dict, plus the event trace, the successive ready
batches drained, and the exception (if one escaped). -/
structure RunRes where
  ran : List Name
  done : List Name
  results : List (Name × Nat)
  trace : List Ev
  readyLog : List (List Name)
  err : Option RunErr
deriving DecidableEq, Repr

def emptyRes : RunRes := ⟨[], [], [], [], [], none⟩

/-- The inner submission loop: `for name in ready: ran.append(name);
futs[pool.submit(by_name[name].action)] = name`.  A missing name raises
`KeyError` after the earlier names were already submitted. -/
def submitAll (tasks : List Task) :
    List Name → RunRes → List (Name × Outcome) → RunRes × Option (List (Name × Outcome))
  | [], st, futs => (st, some futs)
  | n :: rest, st, futs =>
    match byName tasks n with
    | none => ({ st with ran := st.ran ++ [n], err := some (RunErr.keyErr n) }, none)
    | some t =>
      submitAll tasks rest
        { st with ran := st.ran ++ [n], trace := st.trace ++ [Ev.sub n] }
        (futs ++ [(n, t.action)])

/-- The completion loop `for fut in as_completed(futs)` over one batch, with
the futures listed in completion order: record the result, append to
`done`, call `ts.done(name)` (which readies every successor whose last
predecessor just completed); a failed action re-raises out of
`fut.result()` and the remaining futures are abandoned. -/
def awaitAll (g : List (Name × List Name)) :
    List (Name × Outcome) → RunRes → List Name → RunRes × Option (List Name)
  | [], st, acc => (st, some acc)
  | (n, o) :: rest, st, acc =>
    match o with
    | Outcome.fail e => ({ st with err := some (RunErr.taskErr n e) }, none)
    | Outcome.ok v =>
      awaitAll g rest
        { st with results := st.results ++ [(n, v)], done := st.done ++ [n],
                  trace := st.trace ++ [Ev.fin n] }
        (acc ++ (succsOf g n).filter
          (fun s => decide (s ∉ st.done ++ [n]) &&
            (depsOf g s).all (fun d => decide (d ∈ st.done ++ [n]))))

/-- A schedule resolves the only nondeterminism: for each batch index it
rearranges the submitted futures into the order the controller observes
their completions. -/
abbrev Sched := Nat → List (Name × Outcome) → List (Name × Outcome)

/-- A schedule is realizable when it merely permutes each batch. -/
def validSched (sched : Sched) : Prop := ∀ i l, List.Perm (sched i l) l

/-- The `while ts.is_active()` loop: drain the ready set, submit all of it,
then process the completions of the whole batch before draining again.
Fuel bounds the number of iterations; `nodes + 1` always suffices. -/
def runLoop (tasks : List Task) (g : List (Name × List Name)) (sched : Sched) :
    Nat → Nat → List Name → RunRes → RunRes
  | 0, _, _, st => st
  | fuel+1, i, ready, st =>
    if ready = [] then st
    else
      match submitAll tasks ready
          { st with readyLog := st.readyLog ++ [ready],
                    trace := st.trace ++ [Ev.drain] } [] with
      | (st1, none) => st1
      | (st1, some futs) =>
        match awaitAll g (sched i futs) st1 [] with
        | (st2, none) => st2
        | (st2, some newReady) => runLoop tasks g sched fuel (i+1) newReady st2

/-- `run(tasks)`: build `by_name` and the sorter, `prepare()` (cycle check),
then the scheduling loop. -/
def run (tasks : List Task) (sched : Sched) : RunRes :=
  if hasCycle (graphOf tasks) then { emptyRes with err := some RunErr.cycle }
  else
    runLoop tasks (graphOf tasks) sched ((nodesOf (graphOf tasks)).length + 1) 0
      (levelFilter (graphOf tasks) []) emptyRes

/-- The canonical run: completions are observed in submission order. -/
def runD (tasks : List Task) : RunRes := run tasks (fun _ l => l)

/-- Names submitted to the pool, in order. -/
def subsOf (tr : List Ev) : List Name :=
  tr.filterMap (fun e => match e with | Ev.sub n => some n | _ => none)

/-- Names whose completion the controller processed, in order. -/
def finsOf (tr : List Ev) : List Name :=
  tr.filterMap (fun e => match e with | Ev.fin n => some n | _ => none)

/-- Dependency-ordering predicate over a trace: every submission happens
only after all of the task's dependencies (per `dm`) have completed.
`done` accumulates the completions seen so far. -/
def depsOKAux (dm : Name → List Name) : List Name → List Ev → Prop
  | _, [] => True
  | done, Ev.drain :: tr => depsOKAux dm done tr
  | done, Ev.sub n :: tr => (∀ d ∈ dm n, d ∈ done) ∧ depsOKAux dm done tr
  | done, Ev.fin n :: tr => depsOKAux dm (done ++ [n]) tr

/-- Every `get_ready()` drain happens while no submitted task is still
in flight (`p` tracks submitted-but-unfinished tasks). -/
def cleanDrains : List Ev → List Name → Bool
  | [], _ => true
  | Ev.drain :: tr, p => p.isEmpty && cleanDrains tr p
  | Ev.sub n :: tr, p => cleanDrains tr (p ++ [n])
  | Ev.fin n :: tr, p => cleanDrains tr (p.erase n)

/-- Pending (submitted, not completed) tasks after a trace segment. -/
def pendingAfter : List Ev → List Name → List Name
  | [], p => p
  | Ev.drain :: tr, p => pendingAfter tr p
  | Ev.sub n :: tr, p => pendingAfter tr (p ++ [n])
  | Ev.fin n :: tr, p => pendingAfter tr (p.erase n)

/-- Lookup in the results dictionary. -/
def lookupRes (rs : List (Name × Nat)) (n : Name) : Option Nat :=
  (rs.find? (fun p => decide (p.1 = n))).map (fun p => p.2)

/-- The value `run` records for a task when its action succeeds. -/
def canonRes (tasks : List Task) (n : Name) : Option Nat :=
  match byName tasks n with
  | none => none
  | some t => match t.action with
    | Outcome.ok v => some v
    | Outcome.fail _ => none

/-- Value carried by a successful outcome (`0` is never used: it is only
read off outcomes known to be `ok`). -/
def okVal : Outcome → Nat
  | Outcome.ok v => v
  | Outcome.fail _ => 0

/-- Canonical Kahn layering of a graph starting from a given done set: each
layer is the set of nodes all of whose predecessors lie in earlier
layers.  Determined by the graph alone. -/
def layersFrom (g : List (Name × List Name)) : Nat → List Name → List (List Name)
  | 0, _ => []
  | f+1, done =>
    let r := levelFilter g done
    if r = [] then [] else r :: layersFrom g f (done ++ r)

/-- The canonical batch decomposition of an acyclic graph. -/
def kahnLayers (g : List (Name × List Name)) : List (List Name) :=
  layersFrom g ((nodesOf g).length + 1) []

/-- Concrete scenario for the failure-semantics claim: `A` fails, `B`
depends on `A`, `C` is independent. -/
def c1tasks : List Task :=
  [⟨"A", Outcome.fail 0, []⟩, ⟨"B", Outcome.ok 1, ["A"]⟩, ⟨"C", Outcome.ok 2, []⟩]

/-- Duplicate-name scenario: two tasks both named `A`. -/
def c6tasks : List Task :=
  [⟨"A", Outcome.ok 1, []⟩, ⟨"A", Outcome.ok 2, []⟩]

/-- Unknown-dependency scenario: `B` is fine, `A` depends on undeclared
`X`. -/
def c3tasks : List Task :=
  [⟨"B", Outcome.ok 1, []⟩, ⟨"A", Outcome.ok 2, ["X"]⟩]

/-- Cycle scenario: `A` and `B` depend on each other. -/
def c4tasks : List Task :=
  [⟨"A", Outcome.ok 1, ["B"]⟩, ⟨"B", Outcome.ok 2, ["A"]⟩]

/-- Two independent roots and a dependent: used for the wait-one-vs-wait-all
claim. -/
def c7tasks : List Task :=
  [⟨"A", Outcome.ok 1, []⟩, ⟨"B", Outcome.ok 2, []⟩, ⟨"C", Outcome.ok 3, ["A"]⟩]

/-- Small chain used as a witness input. -/
def chainTasks : List Task :=
  [⟨"A", Outcome.ok 1, []⟩, ⟨"B", Outcome.ok 2, ["A"]⟩]

/-- The spec's concrete scenario: `A` and `B` roots, `C` depends on both. -/
def c10tasks : List Task :=
  [⟨"A", Outcome.ok 1, []⟩, ⟨"B", Outcome.ok 2, []⟩, ⟨"C", Outcome.ok 3, ["A", "B"]⟩]

/-- C9: running an empty task collection returns the empty result with no
error, no dispatch, no drain. -/
theorem run_empty_tasks (sched : Sched) : run [] sched = emptyRes := rfl

/-- C1 (divergence evaluation): on the spec's own scenario — `A` fails,
`B → A`, `C` independent — the code propagates `A`'s exception out of
`run`: no result mapping is produced (`C`'s success is lost, `B` is never
accounted for), instead of returning `{A: failure, B: unreachable,
C: success}`. -/
theorem run_aborts_on_first_failure :
    (runD c1tasks).err = some (RunErr.taskErr "A" 0) ∧
      (runD c1tasks).results = [] ∧ (runD c1tasks).done = [] ∧
      (runD c1tasks).ran = ["A", "C"] := by
  decide

/-- C6 (counterexample): two distinct tasks named `A` do not make graph
construction fail — the run proceeds (a task named `A` is dispatched) and
finishes without any error. -/
theorem duplicate_names_not_rejected :
    (runD c6tasks).err = none ∧ Ev.sub "A" ∈ (runD c6tasks).trace := by
  decide

/-- C6 (amended): duplicate names are silently collapsed: the run succeeds,
executes the name once, and the last descriptor's action wins. -/
theorem duplicate_names_last_wins (v₁ v₂ : Nat) :
    runD [⟨"A", Outcome.ok v₁, []⟩, ⟨"A", Outcome.ok v₂, []⟩] =
      ⟨["A"], ["A"], [("A", v₂)], [Ev.drain, Ev.sub "A", Ev.fin "A"], [["A"]], none⟩ := by
  rfl

/-! ## Graph construction facts -/

theorem graphOf_eq_pairs (tasks : List Task) :
    graphOf tasks = graphOfPairs (tasks.map (fun t => (t.name, t.deps))) := by
  unfold graphOf graphOfPairs
  rw [List.foldl_map]

/-- C8: graph construction is a pure function of the declared task
structure: two constructions from task lists with the same names and
dependency sets have the same initial ready set and the same reverse
adjacency, whatever the actions are and however often it is repeated. -/
theorem graph_construction_deterministic (ts₁ ts₂ : List Task)
    (h : ts₁.map (fun t => (t.name, t.deps)) = ts₂.map (fun t => (t.name, t.deps))) :
    levelFilter (graphOf ts₁) [] = levelFilter (graphOf ts₂) [] ∧
      ∀ n, succsOf (graphOf ts₁) n = succsOf (graphOf ts₂) n := by
  have hg : graphOf ts₁ = graphOf ts₂ := by
    rw [graphOf_eq_pairs, graphOf_eq_pairs, h]
  rw [hg]
  exact ⟨rfl, fun _ => rfl⟩

theorem graph_construction_deterministic_witness :
    ([⟨"A", Outcome.ok 1, []⟩] : List Task).map (fun t => (t.name, t.deps)) =
        ([⟨"A", Outcome.ok 2, []⟩] : List Task).map (fun t => (t.name, t.deps)) ∧
      levelFilter (graphOf [⟨"A", Outcome.ok 1, []⟩]) [] =
        levelFilter (graphOf [⟨"A", Outcome.ok 2, []⟩]) [] ∧
      succsOf (graphOf [⟨"A", Outcome.ok 1, []⟩]) "A" =
        succsOf (graphOf [⟨"A", Outcome.ok 2, []⟩]) "A" :=
  ⟨rfl, (graph_construction_deterministic _ _ rfl).1,
    (graph_construction_deterministic _ _ rfl).2 "A"⟩

/-! ## Node and membership lemmas -/

theorem addNode_mem {ns : List Name} {n x : Name} :
    x ∈ addNode ns n ↔ x ∈ ns ∨ x = n := by
  unfold addNode
  by_cases h : n ∈ ns
  · rw [if_pos h]
    exact ⟨Or.inl, fun hx => hx.elim id (fun he => he ▸ h)⟩
  · rw [if_neg h]
    simp

theorem foldl_addNode_mem (l : List Name) :
    ∀ ns x, x ∈ l.foldl addNode ns ↔ x ∈ ns ∨ x ∈ l := by
  induction l with
  | nil => simp
  | cons a l ih =>
    intro ns x
    simp only [List.foldl_cons, ih, addNode_mem, List.mem_cons]
    tauto

theorem nodesOf_mem {g : List (Name × List Name)} {x : Name} :
    x ∈ nodesOf g ↔ ∃ p ∈ g, x = p.1 ∨ x ∈ p.2 := by
  unfold nodesOf
  suffices h : ∀ ns, x ∈ g.foldl (fun ns p => p.2.foldl addNode (addNode ns p.1)) ns ↔
      x ∈ ns ∨ ∃ p ∈ g, x = p.1 ∨ x ∈ p.2 by
    simpa using h []
  induction g with
  | nil => simp
  | cons q g ih =>
    intro ns
    simp only [List.foldl_cons, ih, foldl_addNode_mem, addNode_mem, List.mem_cons]
    constructor
    · rintro (((h | h) | h) | ⟨p, hp, h⟩)
      · exact Or.inl h
      · exact Or.inr ⟨q, Or.inl rfl, Or.inl h⟩
      · exact Or.inr ⟨q, Or.inl rfl, Or.inr h⟩
      · exact Or.inr ⟨p, Or.inr hp, h⟩
    · rintro (h | ⟨p, (rfl | hp), h⟩)
      · exact Or.inl (Or.inl (Or.inl h))
      · rcases h with h | h
        · exact Or.inl (Or.inl (Or.inr h))
        · exact Or.inl (Or.inr h)
      · exact Or.inr ⟨p, hp, h⟩

theorem addNode_nodup {ns : List Name} {n : Name} (h : ns.Nodup) :
    (addNode ns n).Nodup := by
  unfold addNode
  split
  · exact h
  · next hn => simp [List.nodup_append, h, hn]

theorem foldl_addNode_nodup (l : List Name) :
    ∀ ns : List Name, ns.Nodup → (l.foldl addNode ns).Nodup := by
  induction l with
  | nil => exact fun ns h => h
  | cons a l ih => exact fun ns h => ih _ (addNode_nodup h)

theorem nodesOf_nodup (g : List (Name × List Name)) : (nodesOf g).Nodup := by
  unfold nodesOf
  suffices h : ∀ ns : List Name, ns.Nodup →
      (g.foldl (fun ns p => p.2.foldl addNode (addNode ns p.1)) ns).Nodup from
    h [] List.nodup_nil
  induction g with
  | nil => exact fun ns h => h
  | cons q g ih =>
    exact fun ns h => ih _ (foldl_addNode_nodup _ _ (addNode_nodup h))

theorem levelFilter_mem {g : List (Name × List Name)} {done : List Name} {x : Name} :
    x ∈ levelFilter g done ↔
      x ∈ nodesOf g ∧ x ∉ done ∧ ∀ d ∈ depsOf g x, d ∈ done := by
  simp [levelFilter, List.mem_filter, List.all_eq_true, and_assoc]

theorem levelFilter_nodup (g : List (Name × List Name)) (done : List Name) :
    (levelFilter g done).Nodup :=
  (nodesOf_nodup g).filter _

/-- A node with at least one predecessor is a key of the graph. -/
theorem depsOf_ne_nil_mem_key {g : List (Name × List Name)} {n : Name}
    (h : depsOf g n ≠ []) : ∃ p ∈ g, p.1 = n ∧ p.2 = depsOf g n := by
  unfold depsOf at *
  cases hf : g.find? (fun p => decide (p.1 = n)) with
  | none => rw [hf] at h; simp at h
  | some p =>
    refine ⟨p, List.mem_of_find?_eq_some hf, ?_, rfl⟩
    have := List.find?_some hf
    simpa using this

theorem key_mem_nodesOf {g : List (Name × List Name)} {p : Name × List Name}
    (h : p ∈ g) : p.1 ∈ nodesOf g :=
  nodesOf_mem.mpr ⟨p, h, Or.inl rfl⟩

theorem dep_mem_nodesOf {g : List (Name × List Name)} {n d : Name}
    (h : d ∈ depsOf g n) : d ∈ nodesOf g := by
  have hne : depsOf g n ≠ [] := fun he => by rw [he] at h; exact absurd h (List.not_mem_nil d)
  obtain ⟨p, hp, _, hd⟩ := depsOf_ne_nil_mem_key hne
  exact nodesOf_mem.mpr ⟨p, hp, Or.inr (hd ▸ h)⟩

/-! ## Cycles: Kahn elimination reaches exactly the nodes that admit no
dependency cycle below them -/

theorem acc_transGen {α : Type} {r : α → α → Prop} {a : α} (h : Acc r a) :
    Acc (Relation.TransGen r) a := by
  induction h with
  | intro x _ ih =>
    constructor
    intro y hy
    cases hy with
    | single h1 => exact ih y h1
    | tail h1 h2 => exact (ih _ h2).inv h1

theorem acc_no_cycle {α : Type} {r : α → α → Prop} {a : α} (h : Acc r a) :
    ¬ Relation.TransGen r a a := by
  have h' := acc_transGen h
  clear h
  induction h' with
  | intro x _ ih => exact fun hc => ih x hc hc

/-- Everything Kahn elimination reaches is accessible under the
predecessor relation. -/
theorem kahnClosure_acc (g : List (Name × List Name)) :
    ∀ (f : Nat) (done : List Name),
      (∀ d ∈ done, Acc (fun a b => a ∈ depsOf g b) d) →
      ∀ x ∈ kahnClosure g f done, Acc (fun a b => a ∈ depsOf g b) x := by
  intro f
  induction f with
  | zero => exact fun done h => h
  | succ f ih =>
    intro done h x hx
    rw [kahnClosure] at hx
    by_cases hr : levelFilter g done = []
    · rw [if_pos hr] at hx; exact h x hx
    · rw [if_neg hr] at hx
      refine ih _ ?_ x hx
      intro d hd
      rcases List.mem_append.mp hd with hd | hd
      · exact h d hd
      · have hlf := levelFilter_mem.mp hd
        exact Acc.intro d fun y hy => h y (hlf.2.2 y hy)

theorem transGen_exists_step {α : Type} {r : α → α → Prop} {a b : α}
    (h : Relation.TransGen r a b) : ∃ c, r a c := by
  induction h with
  | single h1 => exact ⟨_, h1⟩
  | tail _ _ ih => exact ih

theorem transGen_flip {α : Type} {r : α → α → Prop} {a b : α}
    (h : Relation.TransGen r a b) : Relation.TransGen (fun x y => r y x) b a := by
  induction h with
  | single h1 => exact Relation.TransGen.single h1
  | tail _ h2 ih => exact Relation.TransGen.head h2 ih

/-- A dependency cycle makes `prepare()` raise: some node on the cycle
survives Kahn elimination. -/
theorem cycle_hasCycle {tasks : List Task} {n : Name}
    (h : Relation.TransGen (depRel (graphOf tasks)) n n) :
    hasCycle (graphOf tasks) = true := by
  set g := graphOf tasks with hg
  obtain ⟨c, hc⟩ := transGen_exists_step h
  have hc' : c ∈ depsOf g n := hc
  have hnode : n ∈ nodesOf g := by
    have hne : depsOf g n ≠ [] := fun he => by
      rw [he] at hc'; exact absurd hc' (List.not_mem_nil c)
    obtain ⟨p, hp, hp1, _⟩ := depsOf_ne_nil_mem_key hne
    exact hp1 ▸ key_mem_nodesOf hp
  have hnotin : n ∉ kahnClosure g (nodesOf g).length [] := by
    intro hin
    have hacc := kahnClosure_acc g (nodesOf g).length [] (by simp) n hin
    have hno : ¬ Relation.TransGen (fun a b => a ∈ depsOf g b) n n := acc_no_cycle hacc
    exact hno (transGen_flip h)
  simp only [hasCycle, List.any_eq_true, decide_eq_true_eq]
  exact ⟨n, hnode, hnotin⟩

/-- C4: a dependency cycle makes `run` fail with the cycle error from
`prepare()`, before anything is dispatched: the returned state is empty
except for the error. -/
theorem cycle_aborts_run (tasks : List Task) (sched : Sched)
    (h : ∃ n, Relation.TransGen (depRel (graphOf tasks)) n n) :
    run tasks sched = { emptyRes with err := some RunErr.cycle } := by
  obtain ⟨n, hn⟩ := h
  have hc : hasCycle (graphOf tasks) = true := cycle_hasCycle hn
  simp [run, hc]

theorem cycle_aborts_run_witness :
    run c4tasks (fun _ l => l) = { emptyRes with err := some RunErr.cycle } :=
  cycle_aborts_run c4tasks (fun _ l => l)
    ⟨"A", Relation.TransGen.tail
      (Relation.TransGen.single (show "B" ∈ depsOf (graphOf c4tasks) "A" from by decide))
      (show "A" ∈ depsOf (graphOf c4tasks) "B" from by decide)⟩

/-! ## Lookup facts for `by_name` and the graph dictionary -/

theorem byName_eq_none {tasks : List Task} {n : Name} :
    byName tasks n = none ↔ n ∉ tasks.map (fun t => t.name) := by
  simp only [byName, List.find?_eq_none, List.mem_reverse, decide_eq_true_eq, List.mem_map,
    not_exists, not_and]

theorem byName_isSome {tasks : List Task} {n : Name}
    (h : n ∈ tasks.map (fun t => t.name)) : ∃ t, byName tasks n = some t := by
  cases hb : byName tasks n with
  | none => exact absurd h (byName_eq_none.mp hb)
  | some t => exact ⟨t, rfl⟩

theorem byName_some_spec {tasks : List Task} {n : Name} {t : Task}
    (h : byName tasks n = some t) : t ∈ tasks ∧ t.name = n := by
  have h1 := List.mem_of_find?_eq_some h
  have h2 := List.find?_some h
  exact ⟨List.mem_reverse.mp h1, by simpa using h2⟩

theorem dictInsert_mem {d : List (Name × List Name)} {k : Name} {v : List Name}
    {p : Name × List Name} (h : p ∈ dictInsert d k v) : p ∈ d ∨ p = (k, v) := by
  unfold dictInsert at h
  split at h
  · obtain ⟨q, hq, hfq⟩ := List.mem_map.mp h
    by_cases hqk : q.1 = k
    · right; rw [if_pos hqk] at hfq; exact hfq.symm
    · left; rw [if_neg hqk] at hfq; exact hfq ▸ hq
  · rcases List.mem_append.mp h with h | h
    · exact Or.inl h
    · right; simpa using h

/-- Every entry of the constructed graph dictionary is the name and
dependency list of one of the tasks. -/
theorem graphOf_entry {tasks : List Task} {p : Name × List Name} (h : p ∈ graphOf tasks) :
    ∃ t ∈ tasks, p.1 = t.name ∧ p.2 = t.deps := by
  unfold graphOf at h
  suffices h' : ∀ (l : List Task) (d : List (Name × List Name)),
      p ∈ l.foldl (fun d t => dictInsert d t.name t.deps) d →
      p ∈ d ∨ ∃ t ∈ l, p.1 = t.name ∧ p.2 = t.deps by
    rcases h' tasks [] h with h0 | h0
    · exact absurd h0 (List.not_mem_nil p)
    · exact h0
  intro l
  induction l with
  | nil => intro d hd; exact Or.inl hd
  | cons t l ih =>
    intro d hd
    rcases ih _ hd with hd' | hd'
    · rcases dictInsert_mem hd' with h1 | h1
      · exact Or.inl h1
      · exact Or.inr ⟨t, List.mem_cons_self t l, by rw [h1]; exact ⟨rfl, rfl⟩⟩
    · obtain ⟨t', ht', h1⟩ := hd'
      exact Or.inr ⟨t', List.mem_cons_of_mem t ht', h1⟩

/-! ## The unknown-dependency behaviour -/

/-- If some name in the batch has no task, the submission loop raises
`KeyError` for the first such name, leaving results and done untouched. -/
theorem submitAll_fail (tasks : List Task) :
    ∀ (ready : List Name) (st : RunRes) (futs : List (Name × Outcome)),
      (∃ n ∈ ready, byName tasks n = none) →
      ∃ n st', byName tasks n = none ∧
        submitAll tasks ready st futs = (st', none) ∧
        st'.err = some (RunErr.keyErr n) ∧ st'.results = st.results ∧
        st'.done = st.done ∧ st'.readyLog = st.readyLog := by
  intro ready
  induction ready with
  | nil =>
    rintro st futs ⟨n, hn, _⟩
    exact absurd hn (List.not_mem_nil n)
  | cons m rest ih =>
    rintro st futs ⟨n, hn, hnone⟩
    cases hb : byName tasks m with
    | none =>
      refine ⟨m, { st with ran := st.ran ++ [m], err := some (RunErr.keyErr m) },
        hb, ?_, rfl, rfl, rfl, rfl⟩
      simp only [submitAll]
      rw [hb]
    | some t =>
      rcases List.mem_cons.mp hn with rfl | hn'
      · rw [hb] at hnone; exact absurd hnone (by simp)
      · obtain ⟨n', st', h1, h2, h3, h4, h5, h6⟩ :=
          ih { st with ran := st.ran ++ [m], trace := st.trace ++ [Ev.sub m] }
            (futs ++ [(m, t.action)]) ⟨n, hn', hnone⟩
        refine ⟨n', st', h1, ?_, h3, h4, h5, h6⟩
        simp only [submitAll]
        rw [hb]
        exact h2

/-- If the first drained batch contains a name with no task, the loop ends
at once with that `KeyError` and records no result or completion. -/
theorem runLoop_first_batch_key_fail (tasks : List Task) (g : List (Name × List Name))
    (sched : Sched) (fuel i : Nat) (ready : List Name) (st : RunRes)
    (hne : ready ≠ []) (hmiss : ∃ n ∈ ready, byName tasks n = none) :
    ∃ n, byName tasks n = none ∧
      (runLoop tasks g sched (fuel+1) i ready st).err = some (RunErr.keyErr n) ∧
      (runLoop tasks g sched (fuel+1) i ready st).results = st.results ∧
      (runLoop tasks g sched (fuel+1) i ready st).done = st.done := by
  obtain ⟨n, st', h1, h2, h3, h4, h5, _⟩ :=
    submitAll_fail tasks ready
      { st with readyLog := st.readyLog ++ [ready], trace := st.trace ++ [Ev.drain] } [] hmiss
  have hred : runLoop tasks g sched (fuel+1) i ready st = st' := by
    simp only [runLoop]
    rw [if_neg hne, h2]
  rw [hred]
  exact ⟨n, h1, h3, h4, h5⟩

/-- C3 (amended): a dependency name with no declared task is auto-added as a
ready node by `TopologicalSorter`, so `run` fails with a `KeyError` for an
unknown name during dispatch of the first batch — not with a validation
error before dispatch — and no result or completion is recorded. -/
theorem unknown_dep_keyerror_at_dispatch (tasks : List Task) (sched : Sched)
    (hnc : hasCycle (graphOf tasks) = false)
    (hu : ∃ n ∈ nodesOf (graphOf tasks), n ∉ tasks.map (fun t => t.name)) :
    ∃ n, n ∉ tasks.map (fun t => t.name) ∧
      (run tasks sched).err = some (RunErr.keyErr n) ∧
      (run tasks sched).results = [] ∧ (run tasks sched).done = [] := by
  obtain ⟨u, hun, hname⟩ := hu
  have hdeps : depsOf (graphOf tasks) u = [] := by
    by_contra hne
    obtain ⟨p, hp, hp1, _⟩ := depsOf_ne_nil_mem_key hne
    obtain ⟨t, ht, ht1, _⟩ := graphOf_entry hp
    exact hname (List.mem_map.mpr ⟨t, ht, by rw [← ht1, hp1]⟩)
  have hready : u ∈ levelFilter (graphOf tasks) [] :=
    levelFilter_mem.mpr ⟨hun, by simp, by simp [hdeps]⟩
  have hne : levelFilter (graphOf tasks) [] ≠ [] := List.ne_nil_of_mem hready
  obtain ⟨n, h1, h2, h3, h4⟩ :=
    runLoop_first_batch_key_fail tasks (graphOf tasks) sched
      ((nodesOf (graphOf tasks)).length) 0 (levelFilter (graphOf tasks) []) emptyRes hne
      ⟨u, hready, byName_eq_none.mpr hname⟩
  have hrun : run tasks sched =
      runLoop tasks (graphOf tasks) sched ((nodesOf (graphOf tasks)).length + 1) 0
        (levelFilter (graphOf tasks) []) emptyRes := by
    simp only [run, hnc, Bool.false_eq_true, if_false]
  rw [hrun]
  exact ⟨n, byName_eq_none.mp h1, h2, h3, h4⟩

/-- C3 (counterexample): with `B` declared and `A` depending on the
undeclared `X`, the run raises `KeyError "X"`, but only after task `B` was
already dispatched — the unknown dependency is not rejected before
dispatch. -/
theorem unknown_dep_not_prevalidated :
    (runD c3tasks).err = some (RunErr.keyErr "X") ∧
      Ev.sub "B" ∈ (runD c3tasks).trace := by
  decide

theorem unknown_dep_keyerror_at_dispatch_witness :
    hasCycle (graphOf c3tasks) = false ∧
      (∃ n ∈ nodesOf (graphOf c3tasks), n ∉ c3tasks.map (fun t => t.name)) ∧
      (∃ n, n ∉ c3tasks.map (fun t => t.name) ∧
        (run c3tasks (fun _ l => l)).err = some (RunErr.keyErr n) ∧
        (run c3tasks (fun _ l => l)).results = [] ∧
        (run c3tasks (fun _ l => l)).done = []) :=
  ⟨by decide, by decide,
    unknown_dep_keyerror_at_dispatch c3tasks (fun _ l => l) (by decide) (by decide)⟩


/-! ## Trace calculus -/

theorem finsOf_nil : finsOf [] = [] := rfl

theorem finsOf_cons_drain (tr : List Ev) : finsOf (Ev.drain :: tr) = finsOf tr := rfl

theorem finsOf_cons_sub (n : Name) (tr : List Ev) : finsOf (Ev.sub n :: tr) = finsOf tr := rfl

theorem finsOf_cons_fin (n : Name) (tr : List Ev) :
    finsOf (Ev.fin n :: tr) = n :: finsOf tr := rfl

theorem subsOf_nil : subsOf [] = [] := rfl

theorem subsOf_cons_drain (tr : List Ev) : subsOf (Ev.drain :: tr) = subsOf tr := rfl

theorem subsOf_cons_sub (n : Name) (tr : List Ev) :
    subsOf (Ev.sub n :: tr) = n :: subsOf tr := rfl

theorem subsOf_cons_fin (n : Name) (tr : List Ev) : subsOf (Ev.fin n :: tr) = subsOf tr := rfl

theorem finsOf_append (a b : List Ev) : finsOf (a ++ b) = finsOf a ++ finsOf b := by
  simp [finsOf]

theorem subsOf_append (a b : List Ev) : subsOf (a ++ b) = subsOf a ++ subsOf b := by
  simp [subsOf]

theorem finsOf_map_fin (l : List Name) : finsOf (l.map Ev.fin) = l := by
  induction l with
  | nil => rfl
  | cons a l ih => rw [List.map_cons, finsOf_cons_fin, ih]

theorem finsOf_map_sub (l : List Name) : finsOf (l.map Ev.sub) = [] := by
  induction l with
  | nil => rfl
  | cons a l ih => rw [List.map_cons, finsOf_cons_sub, ih]

theorem subsOf_map_sub (l : List Name) : subsOf (l.map Ev.sub) = l := by
  induction l with
  | nil => rfl
  | cons a l ih => rw [List.map_cons, subsOf_cons_sub, ih]

theorem subsOf_map_fin (l : List Name) : subsOf (l.map Ev.fin) = [] := by
  induction l with
  | nil => rfl
  | cons a l ih => rw [List.map_cons, subsOf_cons_fin, ih]

theorem mem_finsOf {tr : List Ev} {d : Name} : d ∈ finsOf tr ↔ Ev.fin d ∈ tr := by
  induction tr with
  | nil => simp [finsOf]
  | cons e tr ih =>
    cases e with
    | drain => rw [finsOf_cons_drain, ih]; simp
    | sub n => rw [finsOf_cons_sub, ih]; simp
    | fin n => rw [finsOf_cons_fin]; simp [ih]

/-! ## The dependency-ordering predicate -/

theorem depsOKAux_append (dm : Name → List Name) (a : List Ev) :
    ∀ (b : List Ev) (done : List Name),
      depsOKAux dm done (a ++ b) ↔
        depsOKAux dm done a ∧ depsOKAux dm (done ++ finsOf a) b := by
  induction a with
  | nil => intro b done; simp [depsOKAux, finsOf_nil]
  | cons e a ih =>
    intro b done
    cases e with
    | drain =>
      rw [List.cons_append]
      show depsOKAux dm done (a ++ b) ↔ depsOKAux dm done a ∧ _
      rw [ih b done, finsOf_cons_drain]
    | sub n =>
      rw [List.cons_append]
      show (∀ d ∈ dm n, d ∈ done) ∧ depsOKAux dm done (a ++ b) ↔
        ((∀ d ∈ dm n, d ∈ done) ∧ depsOKAux dm done a) ∧ _
      rw [ih b done, finsOf_cons_sub, and_assoc]
    | fin n =>
      rw [List.cons_append]
      show depsOKAux dm (done ++ [n]) (a ++ b) ↔ depsOKAux dm (done ++ [n]) a ∧ _
      rw [ih b (done ++ [n]), finsOf_cons_fin, List.append_assoc]
      rfl

theorem depsOKAux_subs (dm : Name → List Name) (sl : List Name) :
    ∀ acc, depsOKAux dm acc (sl.map Ev.sub) ↔ ∀ x ∈ sl, ∀ d ∈ dm x, d ∈ acc := by
  induction sl with
  | nil => intro acc; simp [depsOKAux]
  | cons a sl ih =>
    intro acc
    rw [List.map_cons]
    show (∀ d ∈ dm a, d ∈ acc) ∧ depsOKAux dm acc (sl.map Ev.sub) ↔ _
    rw [ih acc]
    simp [or_imp, forall_and]

theorem depsOKAux_fins (dm : Name → List Name) (cl : List Name) :
    ∀ acc, depsOKAux dm acc (cl.map Ev.fin) := by
  induction cl with
  | nil => intro acc; trivial
  | cons a cl ih => intro acc; exact ih (acc ++ [a])

/-! ## Shape of one scheduling iteration -/

/-- The submission phase appends `sub` events only for names of the drained
batch and never touches `done` or `results`. -/
theorem submitAll_shape (tasks : List Task) :
    ∀ (ready : List Name) (st : RunRes) (futs : List (Name × Outcome)),
      ∃ sl : List Name, (∀ x ∈ sl, x ∈ ready) ∧
        ((submitAll tasks ready st futs).1).trace = st.trace ++ sl.map Ev.sub ∧
        ((submitAll tasks ready st futs).1).done = st.done ∧
        ((submitAll tasks ready st futs).1).results = st.results ∧
        ((submitAll tasks ready st futs).1).readyLog = st.readyLog := by
  intro ready
  induction ready with
  | nil =>
    intro st futs
    exact ⟨[], by simp, by simp [submitAll], by simp [submitAll], by simp [submitAll],
      by simp [submitAll]⟩
  | cons m rest ih =>
    intro st futs
    cases hb : byName tasks m with
    | none =>
      refine ⟨[], by simp, ?_, ?_, ?_, ?_⟩ <;>
        (simp only [submitAll]; rw [hb]; try simp)
    | some t =>
      obtain ⟨sl, h1, h2, h3, h4, h5⟩ :=
        ih { st with ran := st.ran ++ [m], trace := st.trace ++ [Ev.sub m] }
          (futs ++ [(m, t.action)])
      refine ⟨m :: sl, ?_, ?_, ?_, ?_, ?_⟩
      · intro x hx
        rcases List.mem_cons.mp hx with rfl | hx
        · exact List.mem_cons_self _ _
        · exact List.mem_cons_of_mem _ (h1 x hx)
      · simp only [submitAll]; rw [hb, h2]; simp
      · simp only [submitAll]; rw [hb]; exact h3
      · simp only [submitAll]; rw [hb]; exact h4
      · simp only [submitAll]; rw [hb]; exact h5

/-- The completion phase appends `fin` events for a list of names, extends
`done` by exactly those names in the same order, and every name it adds to
the next ready batch has all its predecessors in the final `done`. -/
theorem awaitAll_shape (g : List (Name × List Name)) :
    ∀ (futs : List (Name × Outcome)) (st : RunRes) (acc : List Name),
      ∃ cl : List Name, ((awaitAll g futs st acc).1).trace = st.trace ++ cl.map Ev.fin ∧
        ((awaitAll g futs st acc).1).done = st.done ++ cl ∧
        ∀ rl, (awaitAll g futs st acc).2 = some rl →
          ∀ s ∈ rl, s ∈ acc ∨ ∀ d ∈ depsOf g s, d ∈ ((awaitAll g futs st acc).1).done := by
  intro futs
  induction futs with
  | nil =>
    intro st acc
    refine ⟨[], by simp [awaitAll], by simp [awaitAll], ?_⟩
    intro rl hrl s hs
    simp only [awaitAll] at hrl
    injection hrl with h
    exact Or.inl (h ▸ hs)
  | cons p futs ih =>
    rcases p with ⟨n, o⟩
    intro st acc
    cases o with
    | fail e =>
      refine ⟨[], by simp [awaitAll], by simp [awaitAll], ?_⟩
      intro rl hrl
      simp only [awaitAll] at hrl
      exact absurd hrl (by simp)
    | ok v =>
      obtain ⟨cl, h1, h2, h3⟩ :=
        ih { st with results := st.results ++ [(n, v)], done := st.done ++ [n],
                     trace := st.trace ++ [Ev.fin n] }
          (acc ++ (succsOf g n).filter
            (fun s => decide (s ∉ st.done ++ [n]) &&
              (depsOf g s).all (fun d => decide (d ∈ st.done ++ [n]))))
      refine ⟨n :: cl, ?_, ?_, ?_⟩
      · show ((awaitAll g ((n, Outcome.ok v) :: futs) st acc).1).trace = _
        simp only [awaitAll]
        rw [h1]
        simp
      · show ((awaitAll g ((n, Outcome.ok v) :: futs) st acc).1).done = _
        simp only [awaitAll]
        rw [h2]
        simp
      · intro rl hrl s hs
        simp only [awaitAll] at hrl ⊢
        rcases h3 rl hrl s hs with hmem | hdeps
        · rcases List.mem_append.mp hmem with hmem | hmem
          · exact Or.inl hmem
          · right
            have hpred := (List.mem_filter.mp hmem).2
            rw [Bool.and_eq_true] at hpred
            have hall := List.all_eq_true.mp hpred.2
            intro d hd
            have hdd : d ∈ st.done ++ [n] := by
              have := hall d hd
              exact decide_eq_true_eq.mp this
            rw [h2]
            rcases List.mem_append.mp hdd with hdd | hdd
            · exact List.mem_append.mpr (Or.inl (List.mem_append.mpr (Or.inl hdd)))
            · simp at hdd
              subst hdd
              exact List.mem_append.mpr (Or.inl (List.mem_append.mpr (Or.inr (by simp))))
        · exact Or.inr hdeps

/-! ## The graph dictionary agrees with `by_name` on dependency lists -/

theorem find?_key_cons (q : Name × List Name) (d : List (Name × List Name)) (n : Name) :
    (q :: d).find? (fun p => decide (p.1 = n)) =
      if q.1 = n then some q else d.find? (fun p => decide (p.1 = n)) := by
  by_cases h : q.1 = n
  · rw [if_pos h]
    exact List.find?_cons_of_pos _ (by simp [h])
  · rw [if_neg h]
    exact List.find?_cons_of_neg _ (by simp [h])

theorem depsOf_cons (q : Name × List Name) (d : List (Name × List Name)) (n : Name) :
    depsOf (q :: d) n = if q.1 = n then q.2 else depsOf d n := by
  unfold depsOf
  rw [find?_key_cons]
  by_cases h : q.1 = n
  · rw [if_pos h, if_pos h]
    rfl
  · rw [if_neg h, if_neg h]

theorem depsOf_map_overwrite_ne (k n : Name) (v : List Name) (hnk : n ≠ k) :
    ∀ d : List (Name × List Name),
      depsOf (d.map (fun p => if p.1 = k then (k, v) else p)) n = depsOf d n := by
  intro d
  induction d with
  | nil => rfl
  | cons q d ih =>
    rw [List.map_cons]
    by_cases hq : q.1 = k
    · rw [if_pos hq, depsOf_cons, depsOf_cons]
      rw [if_neg (show ((k, v) : Name × List Name).1 ≠ n from fun h => hnk h.symm)]
      rw [if_neg (show q.1 ≠ n from fun h => hnk (h.symm.trans hq))]
      exact ih
    · rw [if_neg hq, depsOf_cons, depsOf_cons]
      by_cases hqn : q.1 = n
      · rw [if_pos hqn, if_pos hqn]
      · rw [if_neg hqn, if_neg hqn]
        exact ih

theorem depsOf_map_overwrite_eq (k : Name) (v : List Name) :
    ∀ d : List (Name × List Name), (∃ q ∈ d, q.1 = k) →
      depsOf (d.map (fun p => if p.1 = k then (k, v) else p)) k = v := by
  intro d
  induction d with
  | nil => rintro ⟨q, hq, _⟩; exact absurd hq (List.not_mem_nil q)
  | cons q d ih =>
    rintro ⟨q', hq', hk⟩
    rw [List.map_cons]
    by_cases hq : q.1 = k
    · rw [if_pos hq, depsOf_cons, if_pos rfl]
    · rw [if_neg hq, depsOf_cons, if_neg hq]
      apply ih
      rcases List.mem_cons.mp hq' with rfl | hmem
      · exact absurd hk hq
      · exact ⟨q', hmem, hk⟩

theorem depsOf_append_single_eq (v : List Name) (n : Name) :
    ∀ d : List (Name × List Name), (∀ q ∈ d, q.1 ≠ n) →
      depsOf (d ++ [(n, v)]) n = v := by
  intro d
  induction d with
  | nil =>
    intro _
    rw [List.nil_append, depsOf_cons, if_pos rfl]
  | cons q d ih =>
    intro hq
    rw [List.cons_append, depsOf_cons,
      if_neg (hq q (List.mem_cons_self q d))]
    exact ih fun q' hq' => hq q' (List.mem_cons_of_mem q hq')

theorem depsOf_append_single_ne (v : List Name) (k n : Name) (hnk : n ≠ k) :
    ∀ d : List (Name × List Name), depsOf (d ++ [(k, v)]) n = depsOf d n := by
  intro d
  induction d with
  | nil =>
    rw [List.nil_append, depsOf_cons,
      if_neg (show ((k, v) : Name × List Name).1 ≠ n from fun h => hnk h.symm)]
  | cons q d ih =>
    rw [List.cons_append, depsOf_cons, depsOf_cons]
    by_cases hqn : q.1 = n
    · rw [if_pos hqn, if_pos hqn]
    · rw [if_neg hqn, if_neg hqn]
      exact ih

theorem depsOf_dictInsert (d : List (Name × List Name)) (k n : Name) (v : List Name) :
    depsOf (dictInsert d k v) n = if n = k then v else depsOf d n := by
  unfold dictInsert
  by_cases hany : d.any (fun p => decide (p.1 = k)) = true
  · rw [if_pos hany]
    obtain ⟨q, hq, hqk⟩ := List.any_eq_true.mp hany
    have hqk' : q.1 = k := decide_eq_true_eq.mp hqk
    by_cases hnk : n = k
    · subst hnk
      rw [if_pos rfl]
      exact depsOf_map_overwrite_eq n v d ⟨q, hq, hqk'⟩
    · rw [if_neg hnk]
      exact depsOf_map_overwrite_ne k n v hnk d
  · rw [if_neg hany]
    by_cases hnk : n = k
    · subst hnk
      rw [if_pos rfl]
      refine depsOf_append_single_eq v n d ?_
      intro q hq he
      exact hany (List.any_eq_true.mpr ⟨q, hq, by simp [he]⟩)
    · rw [if_neg hnk]
      exact depsOf_append_single_ne v k n hnk d

theorem graphOf_append (tasks : List Task) (t : Task) :
    graphOf (tasks ++ [t]) = dictInsert (graphOf tasks) t.name t.deps := by
  unfold graphOf
  rw [List.foldl_append]
  rfl

theorem byName_append (tasks : List Task) (t : Task) (n : Name) :
    byName (tasks ++ [t]) n = if t.name = n then some t else byName tasks n := by
  unfold byName
  rw [List.reverse_append]
  simp only [List.reverse_cons, List.reverse_nil, List.nil_append, List.singleton_append]
  by_cases h : t.name = n
  · rw [if_pos h]
    exact List.find?_cons_of_pos _ (by simp [h])
  · rw [if_neg h]
    exact List.find?_cons_of_neg _ (by simp [h])

/-- The dependency list the sorter uses for a dispatched name is exactly
the `deps` of the task `by_name` finds for it (the last declaration
wins in both dictionaries). -/
theorem byName_depsOf (tasks : List Task) :
    ∀ (n : Name) (t : Task), byName tasks n = some t →
      depsOf (graphOf tasks) n = t.deps := by
  induction tasks using List.reverseRecOn with
  | nil => intro n t h; simp [byName] at h
  | append_singleton ts t' ih =>
    intro n t h
    rw [byName_append] at h
    rw [graphOf_append, depsOf_dictInsert]
    by_cases he : t'.name = n
    · rw [if_pos he] at h
      injection h with h
      subst h
      rw [if_pos he.symm]
    · rw [if_neg he] at h
      rw [if_neg (fun hh => he hh.symm)]
      exact ih n t h

/-! ## C2: dispatch only after dependencies are done -/

/-- Loop invariant: starting from a state whose ready batch only contains
names with all predecessors completed, the whole remaining trace respects
the dependency order. -/
theorem runLoop_depsOK (tasks : List Task) (g : List (Name × List Name)) (sched : Sched) :
    ∀ (fuel i : Nat) (ready : List Name) (st : RunRes),
      (∀ r ∈ ready, ∀ d ∈ depsOf g r, d ∈ st.done) →
      ∃ Δ : List Ev, (runLoop tasks g sched fuel i ready st).trace = st.trace ++ Δ ∧
        (runLoop tasks g sched fuel i ready st).done = st.done ++ finsOf Δ ∧
        ∀ acc : List Name, (∀ x ∈ st.done, x ∈ acc) →
          depsOKAux (fun m => depsOf g m) acc Δ := by
  intro fuel
  induction fuel with
  | zero =>
    intro i ready st _
    exact ⟨[], by simp [runLoop], by simp [runLoop, finsOf_nil], fun acc _ => trivial⟩
  | succ fuel ih =>
    intro i ready st hready
    by_cases hr : ready = []
    · refine ⟨[], ?_, ?_, fun acc _ => trivial⟩
      · simp [runLoop, hr]
      · simp [runLoop, hr, finsOf_nil]
    · obtain ⟨sl, hsl, hsubtr, hsubdone, _, _⟩ :=
        submitAll_shape tasks ready
          { st with readyLog := st.readyLog ++ [ready], trace := st.trace ++ [Ev.drain] } []
      rcases hsubp : submitAll tasks ready
          { st with readyLog := st.readyLog ++ [ready], trace := st.trace ++ [Ev.drain] } []
        with ⟨st1, r⟩
      have hst1 : (submitAll tasks ready
          { st with readyLog := st.readyLog ++ [ready], trace := st.trace ++ [Ev.drain] } []).1
            = st1 := by rw [hsubp]
      rw [hst1] at hsubtr hsubdone
      cases r with
      | none =>
        have hL : runLoop tasks g sched (fuel+1) i ready st = st1 := by
          simp only [runLoop]
          rw [if_neg hr, hsubp]
        refine ⟨Ev.drain :: sl.map Ev.sub, ?_, ?_, ?_⟩
        · rw [hL, hsubtr]
          simp
        · rw [hL, hsubdone, finsOf_cons_drain, finsOf_map_sub, List.append_nil]
        · intro acc hacc
          show depsOKAux (fun m => depsOf g m) acc (sl.map Ev.sub)
          rw [depsOKAux_subs]
          intro x hx d hd
          exact hacc d (hready x (hsl x hx) d hd)
      | some futs =>
        obtain ⟨cl, hfintr, hfindone, hrl⟩ := awaitAll_shape g (sched i futs) st1 []
        rcases hawp : awaitAll g (sched i futs) st1 [] with ⟨st2, r2⟩
        have hst2 : (awaitAll g (sched i futs) st1 []).1 = st2 := by rw [hawp]
        have hr2 : (awaitAll g (sched i futs) st1 []).2 = r2 := by rw [hawp]
        rw [hst2] at hfintr hfindone
        simp only [hr2, hst2] at hrl
        cases r2 with
        | none =>
          have hm : runLoop tasks g sched (fuel+1) i ready st =
              (match awaitAll g (sched i futs) st1 [] with
                | (st2, none) => st2
                | (st2, some newReady) => runLoop tasks g sched fuel (i+1) newReady st2) := by
            simp only [runLoop]
            rw [if_neg hr, hsubp]
          have hL : runLoop tasks g sched (fuel+1) i ready st = st2 := by
            rw [hm, hawp]
          refine ⟨Ev.drain :: (sl.map Ev.sub ++ cl.map Ev.fin), ?_, ?_, ?_⟩
          · rw [hL, hfintr, hsubtr]
            simp
          · rw [hL, hfindone, hsubdone, finsOf_cons_drain, finsOf_append, finsOf_map_sub,
              finsOf_map_fin, List.nil_append]
          · intro acc hacc
            show depsOKAux (fun m => depsOf g m) acc (sl.map Ev.sub ++ cl.map Ev.fin)
            rw [depsOKAux_append]
            constructor
            · rw [depsOKAux_subs]
              intro x hx d hd
              exact hacc d (hready x (hsl x hx) d hd)
            · exact depsOKAux_fins _ _ _
        | some rl =>
          have hnextready : ∀ s ∈ rl, ∀ d ∈ depsOf g s, d ∈ st2.done := by
            intro s hs
            rcases hrl rl rfl s hs with h | h
            · exact absurd h (List.not_mem_nil s)
            · exact h
          obtain ⟨Δ', h1, h2, h3⟩ := ih (i+1) rl st2 hnextready
          have hm : runLoop tasks g sched (fuel+1) i ready st =
              (match awaitAll g (sched i futs) st1 [] with
                | (st2, none) => st2
                | (st2, some newReady) => runLoop tasks g sched fuel (i+1) newReady st2) := by
            simp only [runLoop]
            rw [if_neg hr, hsubp]
          have hL : runLoop tasks g sched (fuel+1) i ready st =
              runLoop tasks g sched fuel (i+1) rl st2 := by
            rw [hm, hawp]
          refine ⟨Ev.drain :: (sl.map Ev.sub ++ (cl.map Ev.fin ++ Δ')), ?_, ?_, ?_⟩
          · rw [hL, h1, hfintr, hsubtr]
            simp
          · rw [hL, h2, hfindone, hsubdone, finsOf_cons_drain, finsOf_append, finsOf_map_sub,
              finsOf_append, finsOf_map_fin, List.nil_append, List.append_assoc]
          · intro acc hacc
            show depsOKAux (fun m => depsOf g m) acc (sl.map Ev.sub ++ (cl.map Ev.fin ++ Δ'))
            rw [depsOKAux_append]
            constructor
            · rw [depsOKAux_subs]
              intro x hx d hd
              exact hacc d (hready x (hsl x hx) d hd)
            · rw [depsOKAux_append]
              refine ⟨depsOKAux_fins _ _ _, ?_⟩
              rw [finsOf_map_sub, List.append_nil, finsOf_map_fin]
              refine h3 (acc ++ cl) ?_
              intro x hx
              rw [hfindone, hsubdone] at hx
              rcases List.mem_append.mp hx with hx | hx
              · exact List.mem_append.mpr (Or.inl (hacc x hx))
              · exact List.mem_append.mpr (Or.inr hx)
          -- no further goals

/-- Dependency order holds for every run and schedule. -/
theorem run_depsOK (tasks : List Task) (sched : Sched) :
    depsOKAux (fun m => depsOf (graphOf tasks) m) [] (run tasks sched).trace := by
  cases hc : hasCycle (graphOf tasks) with
  | true =>
    have : (run tasks sched).trace = [] := by simp [run, hc, emptyRes]
    rw [this]
    trivial
  | false =>
    have hrun : run tasks sched = runLoop tasks (graphOf tasks) sched
        ((nodesOf (graphOf tasks)).length + 1) 0 (levelFilter (graphOf tasks) []) emptyRes := by
      simp [run, hc]
    have hready : ∀ r ∈ levelFilter (graphOf tasks) [],
        ∀ d ∈ depsOf (graphOf tasks) r, d ∈ emptyRes.done := by
      intro r hr d hd
      exact (levelFilter_mem.mp hr).2.2 d hd
    obtain ⟨Δ, h1, _, h3⟩ := runLoop_depsOK tasks (graphOf tasks) sched
      ((nodesOf (graphOf tasks)).length + 1) 0 (levelFilter (graphOf tasks) []) emptyRes hready
    rw [hrun, h1]
    show depsOKAux _ [] (emptyRes.trace ++ Δ)
    rw [show emptyRes.trace = [] from rfl, List.nil_append]
    exact h3 [] (by intro x hx; exact absurd hx (List.not_mem_nil x))

/-- C2: a task's action is never submitted to the pool before every one of
its declared dependencies has been completed and marked done: wherever the
trace splits around `sub n`, each dependency of the task dispatched as `n`
has its `fin` event strictly earlier. -/
theorem sub_only_after_deps_fin (tasks : List Task) (sched : Sched)
    (pre post : List Ev) (n : Name) (t : Task)
    (hsplit : (run tasks sched).trace = pre ++ Ev.sub n :: post)
    (hb : byName tasks n = some t) :
    ∀ d ∈ t.deps, Ev.fin d ∈ pre := by
  intro d hd
  have hok := run_depsOK tasks sched
  rw [hsplit, depsOKAux_append] at hok
  have h3 : ∀ x ∈ depsOf (graphOf tasks) n, x ∈ [] ++ finsOf pre := hok.2.1
  rw [byName_depsOf tasks n t hb] at h3
  have hmem := h3 d hd
  rw [List.nil_append] at hmem
  exact mem_finsOf.mp hmem

theorem sub_only_after_deps_fin_witness :
    (run chainTasks (fun _ l => l)).trace =
        [Ev.drain, Ev.sub "A", Ev.fin "A", Ev.drain] ++ Ev.sub "B" :: [Ev.fin "B"] ∧
      Ev.fin "A" ∈ [Ev.drain, Ev.sub "A", Ev.fin "A", Ev.drain] :=
  ⟨by decide,
    sub_only_after_deps_fin chainTasks (fun _ l => l)
      [Ev.drain, Ev.sub "A", Ev.fin "A", Ev.drain] [Ev.fin "B"] "B"
      ⟨"B", Outcome.ok 2, ["A"]⟩ (by decide) (by decide) "A" (by decide)⟩

/-! ## C7: the controller waits for the whole batch before draining again -/

theorem pendingAfter_append (a : List Ev) :
    ∀ (b : List Ev) (p : List Name), pendingAfter (a ++ b) p = pendingAfter b (pendingAfter a p) := by
  induction a with
  | nil => intro b p; rfl
  | cons e a ih =>
    intro b p
    cases e with
    | drain => exact ih b p
    | sub n => exact ih b (p ++ [n])
    | fin n => exact ih b (p.erase n)

theorem cleanDrains_append (a : List Ev) :
    ∀ (b : List Ev) (p : List Name),
      cleanDrains (a ++ b) p = (cleanDrains a p && cleanDrains b (pendingAfter a p)) := by
  induction a with
  | nil => intro b p; simp [cleanDrains, pendingAfter]
  | cons e a ih =>
    intro b p
    cases e with
    | drain =>
      show (p.isEmpty && cleanDrains (a ++ b) p) = ((p.isEmpty && cleanDrains a p) && _)
      rw [ih b p, Bool.and_assoc]
      rfl
    | sub n => exact ih b (p ++ [n])
    | fin n => exact ih b (p.erase n)

theorem pendingAfter_map_sub (sl : List Name) :
    ∀ p : List Name, pendingAfter (sl.map Ev.sub) p = p ++ sl := by
  induction sl with
  | nil => intro p; simp [pendingAfter]
  | cons a sl ih =>
    intro p
    show pendingAfter (sl.map Ev.sub) (p ++ [a]) = p ++ a :: sl
    rw [ih (p ++ [a]), List.append_assoc]
    rfl

theorem pendingAfter_map_fin (cl : List Name) :
    ∀ p : List Name, pendingAfter (cl.map Ev.fin) p = cl.foldl (fun q n => q.erase n) p := by
  induction cl with
  | nil => intro p; rfl
  | cons a cl ih => intro p; exact ih (p.erase a)

theorem cleanDrains_no_drain : ∀ (tr : List Ev), Ev.drain ∉ tr →
    ∀ p : List Name, cleanDrains tr p = true := by
  intro tr
  induction tr with
  | nil => intro _ p; rfl
  | cons e tr ih =>
    intro hnd p
    cases e with
    | drain => exact absurd (List.mem_cons_self _ _) hnd
    | sub n => exact ih (fun h => hnd (List.mem_cons_of_mem _ h)) (p ++ [n])
    | fin n => exact ih (fun h => hnd (List.mem_cons_of_mem _ h)) (p.erase n)

theorem drain_not_mem_map_sub (sl : List Name) : Ev.drain ∉ sl.map Ev.sub := by
  simp

theorem drain_not_mem_map_fin (cl : List Name) : Ev.drain ∉ cl.map Ev.fin := by
  simp

/-- Erasing, one by one, a permutation of a list empties it. -/
theorem erase_all_perm : ∀ (cl p : List Name), cl.Perm p →
    cl.foldl (fun q n => q.erase n) p = [] := by
  intro cl
  induction cl with
  | nil =>
    intro p h
    rw [List.foldl_nil]
    exact (h.symm.eq_nil)
  | cons c cl ih =>
    intro p h
    have hc : c ∈ p := h.subset (List.mem_cons_self c cl)
    have hp : p.Perm (c :: p.erase c) := List.perm_cons_erase hc
    have hcl : cl.Perm (p.erase c) := (h.trans hp).cons_inv
    rw [List.foldl_cons]
    exact ih (p.erase c) hcl

/-- A successful submission phase submits exactly the drained batch, in
order, and the futures' names are the batch. -/
theorem submitAll_ok (tasks : List Task) :
    ∀ (ready : List Name) (st : RunRes) (futs fl : List (Name × Outcome)),
      (submitAll tasks ready st futs).2 = some fl →
      ∃ nl : List (Name × Outcome), fl = futs ++ nl ∧ nl.map Prod.fst = ready ∧
        (∀ p ∈ nl, ∃ t, byName tasks p.1 = some t ∧ p.2 = t.action) ∧
        ((submitAll tasks ready st futs).1).trace = st.trace ++ ready.map Ev.sub ∧
        ((submitAll tasks ready st futs).1).done = st.done ∧
        ((submitAll tasks ready st futs).1).results = st.results ∧
        ((submitAll tasks ready st futs).1).readyLog = st.readyLog ∧
        ((submitAll tasks ready st futs).1).err = st.err := by
  intro ready
  induction ready with
  | nil =>
    intro st futs fl h
    simp only [submitAll] at h
    injection h with h
    exact ⟨[], by rw [← h]; simp, rfl, by simp, by simp [submitAll], by simp [submitAll],
      by simp [submitAll], by simp [submitAll], by simp [submitAll]⟩
  | cons m rest ih =>
    intro st futs fl h
    cases hb : byName tasks m with
    | none =>
      simp only [submitAll] at h
      rw [hb] at h
      exact absurd h (by simp)
    | some t =>
      simp only [submitAll] at h ⊢
      rw [hb] at h ⊢
      obtain ⟨nl, h1, h2, h3, h4, h5, h6, h7, h8⟩ := ih _ _ fl h
      refine ⟨(m, t.action) :: nl, ?_, ?_, ?_, ?_, h5, h6, h7, h8⟩
      · rw [h1]
        simp
      · simp [h2]
      · intro p hp
        rcases List.mem_cons.mp hp with rfl | hp
        · exact ⟨t, hb, rfl⟩
        · exact h3 p hp
      · rw [h4]
        simp

/-- A completion phase that ends without raising processed every future:
all outcomes were successes and `done`, `results` and the trace extend by
exactly the batch. -/
theorem awaitAll_ok (g : List (Name × List Name)) :
    ∀ (futs : List (Name × Outcome)) (st : RunRes) (acc rl : List Name),
      (awaitAll g futs st acc).2 = some rl →
      ((awaitAll g futs st acc).1).trace = st.trace ++ (futs.map Prod.fst).map Ev.fin ∧
        ((awaitAll g futs st acc).1).done = st.done ++ futs.map Prod.fst ∧
        ((awaitAll g futs st acc).1).results =
          st.results ++ futs.map (fun p => (p.1, okVal p.2)) ∧
        ((awaitAll g futs st acc).1).err = st.err ∧
        ((awaitAll g futs st acc).1).readyLog = st.readyLog ∧
        ∀ p ∈ futs, ∃ v, p.2 = Outcome.ok v := by
  intro futs
  induction futs with
  | nil =>
    intro st acc rl _
    refine ⟨by simp [awaitAll], by simp [awaitAll], by simp [awaitAll], by simp [awaitAll],
      by simp [awaitAll], ?_⟩
    intro p hp
    exact absurd hp (List.not_mem_nil p)
  | cons q futs ih =>
    rcases q with ⟨n, o⟩
    intro st acc rl h
    cases o with
    | fail e =>
      simp only [awaitAll] at h
      exact absurd h (by simp)
    | ok v =>
      simp only [awaitAll] at h ⊢
      obtain ⟨h1, h2, h3, h4, h6, h5⟩ := ih _ _ rl h
      refine ⟨?_, ?_, ?_, h4, h6, ?_⟩
      · rw [h1]; simp
      · rw [h2]; simp
      · rw [h3]; simp [okVal]
      · intro p hp
        rcases List.mem_cons.mp hp with rfl | hp
        · exact ⟨v, rfl⟩
        · exact h5 p hp

/-- Every `get_ready()` drain in any run under any realizable schedule
happens with no submitted task still in flight: the controller waited for
the whole previous batch. -/
theorem runLoop_cleanDrains (tasks : List Task) (g : List (Name × List Name))
    (sched : Sched) (hv : validSched sched) :
    ∀ (fuel i : Nat) (ready : List Name) (st : RunRes),
      ∃ Δ : List Ev, (runLoop tasks g sched fuel i ready st).trace = st.trace ++ Δ ∧
        cleanDrains Δ [] = true := by
  intro fuel
  induction fuel with
  | zero => intro i ready st; exact ⟨[], by simp [runLoop], rfl⟩
  | succ fuel ih =>
    intro i ready st
    by_cases hr : ready = []
    · exact ⟨[], by simp [runLoop, hr], rfl⟩
    · rcases hsubp : submitAll tasks ready
          { st with readyLog := st.readyLog ++ [ready], trace := st.trace ++ [Ev.drain] } []
        with ⟨st1, r⟩
      have hst1 : (submitAll tasks ready
          { st with readyLog := st.readyLog ++ [ready], trace := st.trace ++ [Ev.drain] } []).1
            = st1 := by rw [hsubp]
      cases r with
      | none =>
        obtain ⟨sl, _, hsubtr, _, _, _⟩ := submitAll_shape tasks ready
          { st with readyLog := st.readyLog ++ [ready], trace := st.trace ++ [Ev.drain] } []
        rw [hst1] at hsubtr
        have hL : runLoop tasks g sched (fuel+1) i ready st = st1 := by
          simp only [runLoop]
          rw [if_neg hr, hsubp]
        refine ⟨Ev.drain :: sl.map Ev.sub, by rw [hL, hsubtr]; simp, ?_⟩
        show (([] : List Name).isEmpty && cleanDrains (sl.map Ev.sub) []) = true
        rw [cleanDrains_no_drain _ (drain_not_mem_map_sub sl)]
        rfl
      | some futs =>
        have hr2 : (submitAll tasks ready
            { st with readyLog := st.readyLog ++ [ready], trace := st.trace ++ [Ev.drain] } []).2
              = some futs := by rw [hsubp]
        obtain ⟨nl, hnl, hnames, _, hsubtr, _, _, _, _⟩ := submitAll_ok tasks ready
          { st with readyLog := st.readyLog ++ [ready], trace := st.trace ++ [Ev.drain] } []
          futs hr2
        rw [hst1] at hsubtr
        have hfuts : futs.map Prod.fst = ready := by
          rw [hnl, List.nil_append, hnames]
        rcases hawp : awaitAll g (sched i futs) st1 [] with ⟨st2, r2⟩
        have hst2 : (awaitAll g (sched i futs) st1 []).1 = st2 := by rw [hawp]
        cases r2 with
        | none =>
          obtain ⟨cl, hfintr, _, _⟩ := awaitAll_shape g (sched i futs) st1 []
          rw [hst2] at hfintr
          have hm : runLoop tasks g sched (fuel+1) i ready st =
              (match awaitAll g (sched i futs) st1 [] with
                | (st2, none) => st2
                | (st2, some newReady) => runLoop tasks g sched fuel (i+1) newReady st2) := by
            simp only [runLoop]
            rw [if_neg hr, hsubp]
          have hL : runLoop tasks g sched (fuel+1) i ready st = st2 := by rw [hm, hawp]
          refine ⟨Ev.drain :: (ready.map Ev.sub ++ cl.map Ev.fin), ?_, ?_⟩
          · rw [hL, hfintr, hsubtr]
            simp
          · show (([] : List Name).isEmpty &&
              cleanDrains (ready.map Ev.sub ++ cl.map Ev.fin) []) = true
            rw [cleanDrains_append,
              cleanDrains_no_drain _ (drain_not_mem_map_sub ready),
              cleanDrains_no_drain _ (drain_not_mem_map_fin cl)]
            rfl
        | some rl =>
          have hawr : (awaitAll g (sched i futs) st1 []).2 = some rl := by rw [hawp]
          obtain ⟨hfintr, _, _, _, _, _⟩ := awaitAll_ok g (sched i futs) st1 [] rl hawr
          rw [hst2] at hfintr
          obtain ⟨Δ', hΔtr, hΔclean⟩ := ih (i+1) rl st2
          have hm : runLoop tasks g sched (fuel+1) i ready st =
              (match awaitAll g (sched i futs) st1 [] with
                | (st2, none) => st2
                | (st2, some newReady) => runLoop tasks g sched fuel (i+1) newReady st2) := by
            simp only [runLoop]
            rw [if_neg hr, hsubp]
          have hL : runLoop tasks g sched (fuel+1) i ready st =
              runLoop tasks g sched fuel (i+1) rl st2 := by rw [hm, hawp]
          refine ⟨Ev.drain ::
            (ready.map Ev.sub ++ (((sched i futs).map Prod.fst).map Ev.fin ++ Δ')), ?_, ?_⟩
          · rw [hL, hΔtr, hfintr, hsubtr]
            simp
          · have hperm : ((sched i futs).map Prod.fst).Perm ready := by
              rw [← hfuts]
              exact (hv i futs).map Prod.fst
            show (([] : List Name).isEmpty && cleanDrains
              (ready.map Ev.sub ++ (((sched i futs).map Prod.fst).map Ev.fin ++ Δ')) []) = true
            rw [cleanDrains_append, cleanDrains_append,
              cleanDrains_no_drain _ (drain_not_mem_map_sub ready),
              cleanDrains_no_drain _ (drain_not_mem_map_fin ((sched i futs).map Prod.fst)),
              pendingAfter_map_sub, pendingAfter_map_fin,
              erase_all_perm _ _ (by rw [List.nil_append]; exact hperm), hΔclean]
            rfl

/-- The clean-drain property for a full run. -/
theorem run_cleanDrains (tasks : List Task) (sched : Sched) (hv : validSched sched) :
    cleanDrains (run tasks sched).trace [] = true := by
  cases hc : hasCycle (graphOf tasks) with
  | true =>
    have ht : (run tasks sched).trace = [] := by simp [run, hc, emptyRes]
    rw [ht]
    rfl
  | false =>
    have hrun : run tasks sched = runLoop tasks (graphOf tasks) sched
        ((nodesOf (graphOf tasks)).length + 1) 0 (levelFilter (graphOf tasks) []) emptyRes := by
      simp [run, hc]
    obtain ⟨Δ, h1, h2⟩ := runLoop_cleanDrains tasks (graphOf tasks) sched hv
      ((nodesOf (graphOf tasks)).length + 1) 0 (levelFilter (graphOf tasks) []) emptyRes
    rw [hrun, h1, show emptyRes.trace = [] from rfl, List.nil_append]
    exact h2

/-- C7 (amended): after dispatching a drained ready set, the controller
waits until every submission of that batch has been processed before
calling `get_ready()` again: at every drain no previously submitted task
is still in flight, so a task unlocked mid-batch is only dispatched after
the whole previous batch finished. -/
theorem drains_wait_for_whole_batch (tasks : List Task) (sched : Sched)
    (hv : validSched sched) : cleanDrains (run tasks sched).trace [] = true :=
  run_cleanDrains tasks sched hv

theorem drains_wait_for_whole_batch_witness :
    validSched (fun _ l => l) ∧
      cleanDrains (run c7tasks (fun _ l => l)).trace [] = true :=
  ⟨fun _ l => List.Perm.refl l,
    drains_wait_for_whole_batch c7tasks (fun _ l => l) (fun _ l => List.Perm.refl l)⟩

/-- C7 (counterexample): on the claim's own scenario — roots `A`, `B` and
`C` depending on `A` — there is no realizable completion schedule under
which the controller drains the ready set while a previously dispatched
task is still running: the wait-for-at-least-one-then-redrain behaviour
the claim describes never occurs; the code waits for the whole batch. -/
theorem no_redrain_while_in_flight :
    ¬ ∃ sched : Sched, validSched sched ∧
      cleanDrains (run c7tasks sched).trace [] = false := by
  rintro ⟨sched, hv, hbad⟩
  rw [run_cleanDrains c7tasks sched hv] at hbad
  exact Bool.noConfusion hbad

/-! ## Keys of the graph dictionary -/

theorem dictInsert_keys_mem {d : List (Name × List Name)} {k x : Name} {v : List Name} :
    x ∈ (dictInsert d k v).map Prod.fst ↔ x ∈ d.map Prod.fst ∨ x = k := by
  unfold dictInsert
  by_cases hany : d.any (fun p => decide (p.1 = k)) = true
  · rw [if_pos hany]
    rw [List.map_map]
    have hfun : ∀ p ∈ d, (Prod.fst ∘ fun p => if p.1 = k then (k, v) else p) p = p.1 := by
      intro p _
      by_cases hp : p.1 = k
      · simp [Function.comp, hp]
      · simp [Function.comp, hp]
    rw [List.map_congr_left hfun]
    constructor
    · exact Or.inl
    · rintro (h | rfl)
      · exact h
      · obtain ⟨q, hq, hqk⟩ := List.any_eq_true.mp hany
        exact List.mem_map.mpr ⟨q, hq, decide_eq_true_eq.mp hqk⟩
  · rw [if_neg hany]
    simp

theorem graphOf_keys_mem {tasks : List Task} {x : Name} :
    x ∈ (graphOf tasks).map Prod.fst ↔ x ∈ tasks.map (fun t => t.name) := by
  induction tasks using List.reverseRecOn with
  | nil => simp [graphOf]
  | append_singleton ts t ih =>
    rw [graphOf_append, dictInsert_keys_mem, ih]
    simp

theorem graphOf_keys_nodup (tasks : List Task) : ((graphOf tasks).map Prod.fst).Nodup := by
  induction tasks using List.reverseRecOn with
  | nil => simp [graphOf]
  | append_singleton ts t ih =>
    rw [graphOf_append]
    unfold dictInsert
    by_cases hany : (graphOf ts).any (fun p => decide (p.1 = t.name)) = true
    · rw [if_pos hany, List.map_map]
      have hfun : ∀ p ∈ graphOf ts,
          (Prod.fst ∘ fun p => if p.1 = t.name then (t.name, t.deps) else p) p = p.1 := by
        intro p _
        by_cases hp : p.1 = t.name
        · simp [Function.comp, hp]
        · simp [Function.comp, hp]
      rw [List.map_congr_left hfun]
      exact ih
    · rw [if_neg hany]
      rw [List.map_append]
      rw [List.nodup_append]
      refine ⟨ih, by simp, ?_⟩
      intro x hx
      simp only [List.map_cons, List.map_nil, List.mem_cons, List.not_mem_nil, or_false]
      intro hxk
      subst hxk
      obtain ⟨p, hp, hpk⟩ := List.mem_map.mp hx
      exact hany (List.any_eq_true.mpr ⟨p, hp, by simp [hpk]⟩)

theorem find?_key_of_nodup {g : List (Name × List Name)} (hkeys : (g.map Prod.fst).Nodup) :
    ∀ p ∈ g, g.find? (fun q => decide (q.1 = p.1)) = some p := by
  induction g with
  | nil => intro p hp; exact absurd hp (List.not_mem_nil p)
  | cons q g ih =>
    intro p hp
    rcases List.mem_cons.mp hp with rfl | hp'
    · exact List.find?_cons_of_pos _ (by simp)
    · have hq : q.1 ≠ p.1 := by
        intro he
        rw [List.map_cons, List.nodup_cons] at hkeys
        exact hkeys.1 (he ▸ List.mem_map.mpr ⟨p, hp', rfl⟩)
      rw [List.find?_cons_of_neg _ (by simp [fun h => hq h])]
      exact ih (by rw [List.map_cons, List.nodup_cons] at hkeys; exact hkeys.2) p hp'

theorem depsOf_of_mem_nodup {g : List (Name × List Name)} (hkeys : (g.map Prod.fst).Nodup)
    {p : Name × List Name} (hp : p ∈ g) : depsOf g p.1 = p.2 := by
  unfold depsOf
  rw [find?_key_of_nodup hkeys p hp]
  rfl

theorem mem_succsOf {g : List (Name × List Name)} (hkeys : (g.map Prod.fst).Nodup)
    {s c : Name} : s ∈ succsOf g c ↔ s ∈ g.map Prod.fst ∧ c ∈ depsOf g s := by
  unfold succsOf
  constructor
  · intro h
    obtain ⟨p, hp, hps⟩ := List.mem_map.mp h
    have hpg := (List.mem_filter.mp hp).1
    have hcp := decide_eq_true_eq.mp (List.mem_filter.mp hp).2
    subst hps
    exact ⟨List.mem_map.mpr ⟨p, hpg, rfl⟩, by rw [depsOf_of_mem_nodup hkeys hpg]; exact hcp⟩
  · rintro ⟨hkey, hc⟩
    obtain ⟨p, hp, hps⟩ := List.mem_map.mp hkey
    subst hps
    rw [depsOf_of_mem_nodup hkeys hp] at hc
    exact List.mem_map.mpr ⟨p, List.mem_filter.mpr ⟨hp, by simp [hc]⟩, rfl⟩

theorem succsOf_nodup {g : List (Name × List Name)} (hkeys : (g.map Prod.fst).Nodup)
    (c : Name) : (succsOf g c).Nodup := by
  unfold succsOf
  have hsub : (g.filter (fun p => decide (c ∈ p.2))).map Prod.fst |>.Sublist (g.map Prod.fst) :=
    (List.filter_sublist g).map Prod.fst
  exact hkeys.sublist hsub

theorem names_mem_nodesOf {tasks : List Task} {x : Name}
    (h : x ∈ tasks.map (fun t => t.name)) : x ∈ nodesOf (graphOf tasks) := by
  have hk : x ∈ (graphOf tasks).map Prod.fst := graphOf_keys_mem.mpr h
  obtain ⟨p, hp, hps⟩ := List.mem_map.mp hk
  exact hps ▸ key_mem_nodesOf hp

/-! ## The newly-ready set computed by a batch of completions -/

theorem submitAll_some (tasks : List Task) :
    ∀ (ready : List Name) (st : RunRes) (futs : List (Name × Outcome)),
      (∀ n ∈ ready, ∃ t, byName tasks n = some t) →
      ∃ fl, (submitAll tasks ready st futs).2 = some fl := by
  intro ready
  induction ready with
  | nil => intro st futs _; exact ⟨futs, by simp [submitAll]⟩
  | cons m rest ih =>
    intro st futs h
    obtain ⟨t, ht⟩ := h m (List.mem_cons_self m rest)
    simp only [submitAll]
    rw [ht]
    exact ih _ _ (fun n hn => h n (List.mem_cons_of_mem m hn))

theorem awaitAll_some (g : List (Name × List Name)) :
    ∀ (futs : List (Name × Outcome)) (st : RunRes) (acc : List Name),
      (∀ p ∈ futs, ∃ v, p.2 = Outcome.ok v) →
      ∃ rl, (awaitAll g futs st acc).2 = some rl := by
  intro futs
  induction futs with
  | nil => intro st acc _; exact ⟨acc, rfl⟩
  | cons q futs ih =>
    rcases q with ⟨n, o⟩
    intro st acc h
    obtain ⟨v, hv⟩ := h (n, o) (List.mem_cons_self _ _)
    simp only at hv
    subst hv
    simp only [awaitAll]
    exact ih _ _ (fun p hp => h p (List.mem_cons_of_mem _ hp))

/-- Membership in the filter that `ts.done(n)` applies to the successors of
`n`. -/
theorem mem_readyFilter {g : List (Name × List Name)} (hkeys : (g.map Prod.fst).Nodup)
    {D : List Name} {n s : Name} :
    s ∈ (succsOf g n).filter
        (fun s => decide (s ∉ D ++ [n]) && (depsOf g s).all (fun d => decide (d ∈ D ++ [n]))) ↔
      (s ∈ g.map Prod.fst ∧ n ∈ depsOf g s) ∧ s ∉ D ++ [n] ∧
        ∀ d ∈ depsOf g s, d ∈ D ++ [n] := by
  rw [List.mem_filter, mem_succsOf hkeys]
  simp [List.all_eq_true]

/-- Characterization of the ready set a successful completion phase hands
back: exactly the keys that are not yet done, whose predecessors all lie in
the new done set, and that were unlocked by this batch. -/
theorem awaitAll_ready_mem (g : List (Name × List Name)) (hkeys : (g.map Prod.fst).Nodup) :
    ∀ (futs : List (Name × Outcome)) (st : RunRes) (acc rl : List Name) (s : Name),
      (awaitAll g futs st acc).2 = some rl →
      (st.done ++ futs.map Prod.fst).Nodup →
      (∀ x ∈ futs.map Prod.fst, ∀ d ∈ depsOf g x, d ∈ st.done) →
      (s ∈ rl ↔ s ∈ acc ∨ (s ∈ g.map Prod.fst ∧ s ∉ st.done ++ futs.map Prod.fst ∧
        (∀ d ∈ depsOf g s, d ∈ st.done ++ futs.map Prod.fst) ∧
        ¬ (∀ d ∈ depsOf g s, d ∈ st.done))) := by
  intro futs
  induction futs with
  | nil =>
    intro st acc rl s h _ _
    simp only [awaitAll] at h
    injection h with h
    subst h
    constructor
    · exact Or.inl
    · rintro (h | ⟨_, _, hall, hnot⟩)
      · exact h
      · exact absurd (fun d hd => by simpa using hall d hd) hnot
  | cons q futs ih =>
    rcases q with ⟨n, o⟩
    intro st acc rl s h hnd hdeps
    cases o with
    | fail e =>
      simp only [awaitAll] at h
      exact absurd h (by simp)
    | ok v =>
      simp only [awaitAll] at h
      have hndD : n ∉ st.done := by
        intro hmem
        have hdisj := (List.nodup_append.mp hnd).2.2
        exact hdisj hmem (by simp)
      have hnF : n ∉ futs.map Prod.fst := by
        have h2 := (List.nodup_append.mp hnd).2.1
        simp only [List.map_cons, List.nodup_cons] at h2
        exact h2.1
      have hFdeps : ∀ x ∈ futs.map Prod.fst, ∀ d ∈ depsOf g x, d ∈ st.done :=
        fun x hx => hdeps x (by simp [hx])
      have hiff := ih _ _ rl s h
        (by show ((st.done ++ [n]) ++ futs.map Prod.fst).Nodup
            rw [List.append_assoc]
            simpa using hnd)
        (by intro x hx d hd
            show d ∈ st.done ++ [n]
            exact List.mem_append.mpr (Or.inl (hFdeps x hx d hd)))
      rw [hiff]
      show s ∈ acc ++ (succsOf g n).filter
          (fun s => decide (s ∉ st.done ++ [n]) &&
            (depsOf g s).all (fun d => decide (d ∈ st.done ++ [n]))) ∨
        (s ∈ g.map Prod.fst ∧ s ∉ (st.done ++ [n]) ++ futs.map Prod.fst ∧
          (∀ d ∈ depsOf g s, d ∈ (st.done ++ [n]) ++ futs.map Prod.fst) ∧
          ¬ (∀ d ∈ depsOf g s, d ∈ st.done ++ [n])) ↔ _
      rw [List.append_assoc]
      show s ∈ acc ++ _ ∨ (s ∈ g.map Prod.fst ∧ s ∉ st.done ++ (n :: futs.map Prod.fst) ∧
          (∀ d ∈ depsOf g s, d ∈ st.done ++ (n :: futs.map Prod.fst)) ∧
          ¬ (∀ d ∈ depsOf g s, d ∈ st.done ++ [n])) ↔
        s ∈ acc ∨ (s ∈ g.map Prod.fst ∧ s ∉ st.done ++ (n :: futs.map Prod.fst) ∧
          (∀ d ∈ depsOf g s, d ∈ st.done ++ (n :: futs.map Prod.fst)) ∧
          ¬ (∀ d ∈ depsOf g s, d ∈ st.done))
      constructor
      · rintro (hmem | ⟨hK, hN, hD1, hnot⟩)
        · rcases List.mem_append.mp hmem with hmem | hmem
          · exact Or.inl hmem
          · rw [mem_readyFilter hkeys] at hmem
            obtain ⟨⟨hK, hcn⟩, hsnotin, hsdeps⟩ := hmem
            refine Or.inr ⟨hK, ?_, ?_, ?_⟩
            · intro hin
              rcases List.mem_append.mp hin with hin | hin
              · exact hsnotin (List.mem_append.mpr (Or.inl hin))
              · rcases List.mem_cons.mp hin with rfl | hin
                · exact hsnotin (by simp)
                · exact hndD (hFdeps s hin n hcn)
            · intro d hd
              rcases List.mem_append.mp (hsdeps d hd) with hd' | hd'
              · exact List.mem_append.mpr (Or.inl hd')
              · simp only [List.mem_singleton] at hd'
                subst hd'
                exact List.mem_append.mpr (Or.inr (by simp))
            · intro hall
              exact hndD (hall n hcn)
        · refine Or.inr ⟨hK, hN, hD1, ?_⟩
          intro hall
          exact hnot (fun d hd => List.mem_append.mpr (Or.inl (hall d hd)))
      · rintro (hmem | ⟨hK, hN, hD1, hnot⟩)
        · exact Or.inl (List.mem_append.mpr (Or.inl hmem))
        · by_cases hsub : ∀ d ∈ depsOf g s, d ∈ st.done ++ [n]
          · refine Or.inl (List.mem_append.mpr (Or.inr ?_))
            rw [mem_readyFilter hkeys]
            have hcn : n ∈ depsOf g s := by
              have : ∃ d ∈ depsOf g s, d ∉ st.done := by
                by_contra hno
                push_neg at hno
                exact hnot hno
              obtain ⟨d, hd, hdn⟩ := this
              rcases List.mem_append.mp (hsub d hd) with hd' | hd'
              · exact absurd hd' hdn
              · simp only [List.mem_singleton] at hd'
                exact hd' ▸ hd
            refine ⟨⟨hK, hcn⟩, ?_, hsub⟩
            intro hin
            rcases List.mem_append.mp hin with hin | hin
            · exact hN (List.mem_append.mpr (Or.inl hin))
            · simp only [List.mem_singleton] at hin
              exact hN (List.mem_append.mpr (Or.inr (hin ▸ by simp)))
          · exact Or.inr ⟨hK, hN, hD1, hsub⟩

/-- The ready set a successful completion phase hands back has no
duplicates. -/
theorem awaitAll_ready_nodup (g : List (Name × List Name)) (hkeys : (g.map Prod.fst).Nodup) :
    ∀ (futs : List (Name × Outcome)) (st : RunRes) (acc rl : List Name),
      (awaitAll g futs st acc).2 = some rl →
      (st.done ++ futs.map Prod.fst).Nodup →
      (∀ x ∈ futs.map Prod.fst, ∀ d ∈ depsOf g x, d ∈ st.done) →
      acc.Nodup →
      (∀ x ∈ acc, ∀ d ∈ depsOf g x, d ∈ st.done) →
      rl.Nodup := by
  intro futs
  induction futs with
  | nil =>
    intro st acc rl h _ _ haccnd _
    simp only [awaitAll] at h
    injection h with h
    exact h ▸ haccnd
  | cons q futs ih =>
    rcases q with ⟨n, o⟩
    intro st acc rl h hnd hdeps haccnd haccdeps
    cases o with
    | fail e =>
      simp only [awaitAll] at h
      exact absurd h (by simp)
    | ok v =>
      simp only [awaitAll] at h
      have hndD : n ∉ st.done := by
        intro hmem
        exact (List.nodup_append.mp hnd).2.2 hmem (by simp)
      refine ih _ _ rl h ?_ ?_ ?_ ?_
      · show ((st.done ++ [n]) ++ futs.map Prod.fst).Nodup
        rw [List.append_assoc]
        simpa using hnd
      · intro x hx d hd
        show d ∈ st.done ++ [n]
        exact List.mem_append.mpr (Or.inl (hdeps x (by simp [hx]) d hd))
      · refine List.Nodup.append haccnd ((succsOf_nodup hkeys n).filter _) ?_
        intro x hx hx'
        rw [mem_readyFilter hkeys] at hx'
        exact hndD (haccdeps x hx n hx'.1.2)
      · intro x hx d hd
        show d ∈ st.done ++ [n]
        rcases List.mem_append.mp hx with hx | hx
        · exact List.mem_append.mpr (Or.inl (haccdeps x hx d hd))
        · rw [mem_readyFilter hkeys] at hx
          exact hx.2.2 d hd

/-! ## Kahn elimination: completeness of the cycle check -/

/-- Kahn elimination stays inside any dependency-closed superset. -/
theorem kahnClosure_subset_closed (g : List (Name × List Name)) (D : List Name)
    (hD : ∀ s ∈ nodesOf g, (∀ d ∈ depsOf g s, d ∈ D) → s ∈ D) :
    ∀ (f : Nat) (done : List Name), (∀ x ∈ done, x ∈ D) →
      ∀ x ∈ kahnClosure g f done, x ∈ D := by
  intro f
  induction f with
  | zero => exact fun done h => h
  | succ f ih =>
    intro done h x hx
    rw [kahnClosure] at hx
    by_cases hr : levelFilter g done = []
    · rw [if_pos hr] at hx
      exact h x hx
    · rw [if_neg hr] at hx
      refine ih _ ?_ x hx
      intro y hy
      rcases List.mem_append.mp hy with hy | hy
      · exact h y hy
      · have hlf := levelFilter_mem.mp hy
        exact hD y hlf.1 (fun d hd => h d (hlf.2.2 d hd))

/-- When the cycle check passes, Kahn elimination reaches every node. -/
theorem hasCycle_false_covers {g : List (Name × List Name)} (h : hasCycle g = false) :
    ∀ x ∈ nodesOf g, x ∈ kahnClosure g (nodesOf g).length [] := by
  intro x hx
  have := List.any_eq_false.mp h x hx
  simpa using this

/-- With enough fuel, Kahn elimination ends in a fixed point: no node is
still ready relative to the computed closure. -/
theorem kahnClosure_fixpoint (g : List (Name × List Name)) :
    ∀ (f : Nat) (done : List Name), done.Nodup → (∀ x ∈ done, x ∈ nodesOf g) →
      (nodesOf g).length ≤ f + done.length →
      (kahnClosure g f done).Nodup ∧ (∀ x ∈ kahnClosure g f done, x ∈ nodesOf g) ∧
        levelFilter g (kahnClosure g f done) = [] := by
  intro f
  induction f with
  | zero =>
    intro done hnd hsub hlen
    refine ⟨hnd, hsub, ?_⟩
    have hperm : done.Perm (nodesOf g) :=
      (hnd.subperm hsub).perm_of_length_le (by simpa using hlen)
    rw [List.eq_nil_iff_forall_not_mem]
    intro a ha
    have hm := levelFilter_mem.mp ha
    exact hm.2.1 (hperm.mem_iff.mpr hm.1)
  | succ f ih =>
    intro done hnd hsub hlen
    rw [kahnClosure]
    by_cases hr : levelFilter g done = []
    · rw [if_pos hr]
      exact ⟨hnd, hsub, hr⟩
    · rw [if_neg hr]
      have hrnd : (levelFilter g done).Nodup := levelFilter_nodup g done
      have hrdisj : ∀ x ∈ levelFilter g done, x ∉ done :=
        fun x hx => (levelFilter_mem.mp hx).2.1
      have hnd' : (done ++ levelFilter g done).Nodup := by
        rw [List.nodup_append]
        exact ⟨hnd, hrnd, fun x hx hx' => hrdisj x hx' hx⟩
      have hsub' : ∀ x ∈ done ++ levelFilter g done, x ∈ nodesOf g := by
        intro x hx
        rcases List.mem_append.mp hx with hx | hx
        · exact hsub x hx
        · exact (levelFilter_mem.mp hx).1
      have hlen' : (nodesOf g).length ≤ f + (done ++ levelFilter g done).length := by
        rw [List.length_append]
        have : 1 ≤ (levelFilter g done).length := by
          rcases List.exists_mem_of_ne_nil _ hr with ⟨a, ha⟩
          exact List.length_pos.mpr (List.ne_nil_of_mem ha)
        omega
      exact ih _ hnd' hsub' hlen'

/-- Pigeonhole: a finite set in which every element has a successor inside
the set contains a dependency cycle. -/
theorem endo_cycle (g : List (Name × List Name)) :
    ∀ (m : Nat) (R : Finset Name), R.card ≤ m →
      (∀ s ∈ R, ∃ d ∈ R, depRel g s d) → ∀ s₀ ∈ R,
        ∃ n, Relation.TransGen (depRel g) n n := by
  intro m
  induction m with
  | zero =>
    intro R hcard _ s₀ hs₀
    have : R = ∅ := Finset.card_eq_zero.mp (Nat.le_zero.mp hcard)
    exact absurd (this ▸ hs₀) (Finset.not_mem_empty s₀)
  | succ m ih =>
    intro R hcard h s₀ hs₀
    by_cases hcyc : Relation.TransGen (depRel g) s₀ s₀
    · exact ⟨s₀, hcyc⟩
    · classical
      obtain ⟨d, hd, hrd⟩ := h s₀ hs₀
      have hdR' : d ∈ R.filter (fun x => Relation.TransGen (depRel g) s₀ x) :=
        Finset.mem_filter.mpr ⟨hd, Relation.TransGen.single hrd⟩
      have hsub : ∀ s ∈ R.filter (fun x => Relation.TransGen (depRel g) s₀ x),
          ∃ d' ∈ R.filter (fun x => Relation.TransGen (depRel g) s₀ x), depRel g s d' := by
        intro s hs
        obtain ⟨d', hd', hrd'⟩ := h s (Finset.mem_filter.mp hs).1
        exact ⟨d', Finset.mem_filter.mpr ⟨hd', ((Finset.mem_filter.mp hs).2).tail hrd'⟩, hrd'⟩
      have hcard' : (R.filter (fun x => Relation.TransGen (depRel g) s₀ x)).card ≤ m := by
        have hss : R.filter (fun x => Relation.TransGen (depRel g) s₀ x) ⊂ R := by
          refine ⟨Finset.filter_subset _ _, fun hsub' => ?_⟩
          exact hcyc (Finset.mem_filter.mp (hsub' hs₀)).2
        have hlt := Finset.card_lt_card hss
        omega
      exact ih _ hcard' hsub d hdR'

/-- Completeness: when the check reports a cycle, the dependency relation
really contains one. -/
theorem cycle_of_hasCycle {g : List (Name × List Name)} (h : hasCycle g = true) :
    ∃ n, Relation.TransGen (depRel g) n n := by
  classical
  obtain ⟨n₀, hn₀, hnc⟩ := List.any_eq_true.mp h
  have hnc' : n₀ ∉ kahnClosure g (nodesOf g).length [] := by simpa using hnc
  obtain ⟨hclnd, hclsub, hfix⟩ :=
    kahnClosure_fixpoint g (nodesOf g).length [] List.nodup_nil (by simp) (by simp)
  set cl := kahnClosure g (nodesOf g).length [] with hcl
  set R : Finset Name := (nodesOf g).toFinset.filter (fun x => x ∉ cl) with hR
  have hmemR : ∀ x, x ∈ R ↔ x ∈ nodesOf g ∧ x ∉ cl := by
    intro x
    rw [hR, Finset.mem_filter, List.mem_toFinset]
  have hstep : ∀ s ∈ R, ∃ d ∈ R, depRel g s d := by
    intro s hs
    obtain ⟨hsn, hsc⟩ := (hmemR s).mp hs
    have hnot : ¬ (∀ d ∈ depsOf g s, d ∈ cl) := by
      intro hall
      have : s ∈ levelFilter g cl := levelFilter_mem.mpr ⟨hsn, hsc, hall⟩
      rw [hfix] at this
      exact absurd this (List.not_mem_nil s)
    push_neg at hnot
    obtain ⟨d, hd, hdc⟩ := hnot
    exact ⟨d, (hmemR d).mpr ⟨dep_mem_nodesOf hd, hdc⟩, hd⟩
  exact endo_cycle g R.card R (le_refl _) hstep n₀ ((hmemR n₀).mpr ⟨hn₀, hnc'⟩)

/-- The cycle check is exact: it reports `false` precisely when the
dependency relation of the constructed graph is acyclic. -/
theorem hasCycle_false_iff_acyclic (g : List (Name × List Name)) :
    hasCycle g = false ↔ ∀ n, ¬ Relation.TransGen (depRel g) n n := by
  constructor
  · intro h n hn
    obtain ⟨hclnd, hclsub, hfix⟩ :=
      kahnClosure_fixpoint g (nodesOf g).length [] List.nodup_nil (by simp) (by simp)
    obtain ⟨c, hc⟩ := transGen_exists_step hn
    have hc' : c ∈ depsOf g n := hc
    have hnode : n ∈ nodesOf g := by
      have hne : depsOf g n ≠ [] := fun he => by
        rw [he] at hc'
        exact absurd hc' (List.not_mem_nil c)
      obtain ⟨p, hp, hp1, _⟩ := depsOf_ne_nil_mem_key hne
      exact hp1 ▸ key_mem_nodesOf hp
    have hin := hasCycle_false_covers h n hnode
    exact acc_no_cycle (kahnClosure_acc g (nodesOf g).length [] (by simp) n hin)
      (transGen_flip hn)
  · intro h
    cases hc : hasCycle g with
    | false => rfl
    | true =>
      obtain ⟨n, hn⟩ := cycle_of_hasCycle hc
      exact absurd hn (h n)

/-! ## Canonical layers -/

theorem layersFrom_congr (g : List (Name × List Name)) :
    ∀ (f : Nat) (D₁ D₂ : List Name), (∀ x, x ∈ D₁ ↔ x ∈ D₂) →
      layersFrom g f D₁ = layersFrom g f D₂ := by
  intro f
  induction f with
  | zero => intro D₁ D₂ _; rfl
  | succ f ih =>
    intro D₁ D₂ hiff
    have hfil : levelFilter g D₁ = levelFilter g D₂ := by
      unfold levelFilter
      refine List.filter_congr ?_
      intro x _
      have h1 : decide (x ∉ D₁) = decide (x ∉ D₂) :=
        decide_eq_decide.mpr (by rw [hiff x])
      have h2 : (depsOf g x).all (fun d => decide (d ∈ D₁)) =
          (depsOf g x).all (fun d => decide (d ∈ D₂)) := by
        induction depsOf g x with
        | nil => rfl
        | cons d ds ihd =>
          rw [List.all_cons, List.all_cons, ihd, decide_eq_decide.mpr (hiff d)]
      rw [h1, h2]
    rw [layersFrom, layersFrom, hfil]
    by_cases hr : levelFilter g D₂ = []
    · rw [if_pos hr, if_pos hr]
    · rw [if_neg hr, if_neg hr]
      rw [ih (D₁ ++ levelFilter g D₂) (D₂ ++ levelFilter g D₂) (by
        intro x
        rw [List.mem_append, List.mem_append, hiff x])]

theorem layersFrom_of_fixed (g : List (Name × List Name)) {D : List Name}
    (h : levelFilter g D = []) : ∀ f, layersFrom g f D = [] := by
  intro f
  cases f with
  | zero => rfl
  | succ f => rw [layersFrom, if_pos h]

/-! ## The master invariant of the loop on a valid, all-successful task set -/

/-- On an acyclic graph with every node resolvable in `by_name` and every
action succeeding, the loop (from any invariant-respecting state)
finishes every node exactly once, keeps `results` keyed by the completed
names with the actions' values, logs exactly the canonical Kahn layers,
and submits exactly the names it completes. -/
theorem runLoop_complete (tasks : List Task) (sched : Sched) (hv : validSched sched)
    (hnc : hasCycle (graphOf tasks) = false)
    (hok : ∀ t ∈ tasks, ∃ v, t.action = Outcome.ok v)
    (hknown : ∀ x ∈ nodesOf (graphOf tasks), x ∈ tasks.map (fun t => t.name)) :
    ∀ (fuel i : Nat) (ready : List Name) (st : RunRes),
      (nodesOf (graphOf tasks)).length + 1 ≤ fuel + st.done.length →
      (st.done ++ ready).Nodup →
      (∀ x ∈ st.done ++ ready, x ∈ nodesOf (graphOf tasks)) →
      (∀ r ∈ ready, ∀ d ∈ depsOf (graphOf tasks) r, d ∈ st.done) →
      (∀ x ∈ st.done, ∀ d ∈ depsOf (graphOf tasks) x, d ∈ st.done) →
      (∀ s ∈ nodesOf (graphOf tasks),
        (∀ d ∈ depsOf (graphOf tasks) s, d ∈ st.done) → s ∈ st.done ∨ s ∈ ready) →
      st.err = none →
      st.results.map Prod.fst = st.done →
      (∀ p ∈ st.results, ∃ t, byName tasks p.1 = some t ∧ t.action = Outcome.ok p.2) →
      (runLoop tasks (graphOf tasks) sched fuel i ready st).err = none ∧
      ((runLoop tasks (graphOf tasks) sched fuel i ready st).done).Nodup ∧
      (∀ x, x ∈ (runLoop tasks (graphOf tasks) sched fuel i ready st).done ↔
        x ∈ nodesOf (graphOf tasks)) ∧
      (runLoop tasks (graphOf tasks) sched fuel i ready st).results.map Prod.fst =
        (runLoop tasks (graphOf tasks) sched fuel i ready st).done ∧
      (∀ p ∈ (runLoop tasks (graphOf tasks) sched fuel i ready st).results,
        ∃ t, byName tasks p.1 = some t ∧ t.action = Outcome.ok p.2) ∧
      (∃ L : List (List Name),
        (runLoop tasks (graphOf tasks) sched fuel i ready st).readyLog = st.readyLog ++ L ∧
        ∀ k x, x ∈ L.getD k [] ↔
          x ∈ (layersFrom (graphOf tasks) fuel st.done).getD k []) ∧
      (∃ Δ : List Ev,
        (runLoop tasks (graphOf tasks) sched fuel i ready st).trace = st.trace ++ Δ ∧
        (subsOf Δ).Perm (finsOf Δ) ∧
        (runLoop tasks (graphOf tasks) sched fuel i ready st).done =
          st.done ++ finsOf Δ) := by
  intro fuel
  induction fuel with
  | zero =>
    intro i ready st hfuel hnd hsub _ _ _ _ _ _
    exfalso
    have hdnd : st.done.Nodup := (List.nodup_append.mp hnd).1
    have hdsub : st.done ⊆ nodesOf (graphOf tasks) :=
      fun x hx => hsub x (List.mem_append.mpr (Or.inl hx))
    have := (hdnd.subperm hdsub).length_le
    omega
  | succ fuel ih =>
    intro i ready st hfuel hnd hsub hready hDdeps hclosed herr hres hresv
    by_cases hr : ready = []
    · subst hr
      have hLrw : runLoop tasks (graphOf tasks) sched (fuel+1) i [] st = st := by
        simp [runLoop]
      have hclosed' : ∀ s ∈ nodesOf (graphOf tasks),
          (∀ d ∈ depsOf (graphOf tasks) s, d ∈ st.done) → s ∈ st.done := by
        intro s hs hd
        rcases hclosed s hs hd with h | h
        · exact h
        · exact absurd h (List.not_mem_nil s)
      have hcover : ∀ x ∈ nodesOf (graphOf tasks), x ∈ st.done := fun x hx =>
        kahnClosure_subset_closed (graphOf tasks) st.done hclosed'
          (nodesOf (graphOf tasks)).length [] (by simp) x (hasCycle_false_covers hnc x hx)
      have hfix : levelFilter (graphOf tasks) st.done = [] := by
        rw [List.eq_nil_iff_forall_not_mem]
        intro a ha
        have hm := levelFilter_mem.mp ha
        exact hm.2.1 (hcover a hm.1)
      rw [hLrw]
      refine ⟨herr, (List.nodup_append.mp hnd).1, ?_, hres, hresv, ⟨[], by simp, ?_⟩,
        ⟨[], by simp, by simp [subsOf_nil, finsOf_nil], by simp [finsOf_nil]⟩⟩
      · intro x
        exact ⟨fun hx => hsub x (List.mem_append.mpr (Or.inl hx)), hcover x⟩
      · intro k x
        rw [layersFrom_of_fixed (graphOf tasks) hfix (fuel+1)]
    · have hkeys := graphOf_keys_nodup tasks
      have hdisj : ∀ x ∈ ready, x ∉ st.done := by
        intro x hx hd
        exact (List.nodup_append.mp hnd).2.2 hd hx
      have hallsome : ∀ n ∈ ready, ∃ t, byName tasks n = some t := fun n hn =>
        byName_isSome (hknown n (hsub n (List.mem_append.mpr (Or.inr hn))))
      obtain ⟨futs0, hfuts0⟩ := submitAll_some tasks ready
        { st with readyLog := st.readyLog ++ [ready], trace := st.trace ++ [Ev.drain] } []
        hallsome
      rcases hsubp : submitAll tasks ready
          { st with readyLog := st.readyLog ++ [ready], trace := st.trace ++ [Ev.drain] } []
        with ⟨st1, rr⟩
      have hst1 : (submitAll tasks ready
          { st with readyLog := st.readyLog ++ [ready], trace := st.trace ++ [Ev.drain] } []).1
            = st1 := by rw [hsubp]
      have hrr : rr = some futs0 := by
        rw [hsubp] at hfuts0
        exact hfuts0
      subst hrr
      obtain ⟨nl, hnl, hnlnames, hnlact, hsubtr0, hsubdone0, hsubres0, hsublog0, hsuberr0⟩ :=
        submitAll_ok tasks ready _ [] futs0 (by rw [hsubp])
      rw [hst1] at hsubtr0 hsubdone0 hsubres0 hsublog0 hsuberr0
      have hfutsnl : futs0 = nl := by simpa using hnl
      have hnames2 : futs0.map Prod.fst = ready := by rw [hfutsnl]; exact hnlnames
      have hsubtr : st1.trace = (st.trace ++ [Ev.drain]) ++ ready.map Ev.sub := hsubtr0
      have hsubdone : st1.done = st.done := hsubdone0
      have hsubres : st1.results = st.results := hsubres0
      have hsublog : st1.readyLog = st.readyLog ++ [ready] := hsublog0
      have hsuberr : st1.err = st.err := hsuberr0
      have hfutsok : ∀ p ∈ sched i futs0, ∃ v, p.2 = Outcome.ok v := by
        intro p hp
        have hp' : p ∈ futs0 := (hv i futs0).subset hp
        rw [hfutsnl] at hp'
        obtain ⟨t, hbt, hact⟩ := hnlact p hp'
        obtain ⟨v, hokv⟩ := hok t (byName_some_spec hbt).1
        exact ⟨v, by rw [hact, hokv]⟩
      obtain ⟨rl0, hrl0⟩ := awaitAll_some (graphOf tasks) (sched i futs0) st1 [] hfutsok
      rcases hawp : awaitAll (graphOf tasks) (sched i futs0) st1 [] with ⟨st2, rr2⟩
      have hst2 : (awaitAll (graphOf tasks) (sched i futs0) st1 []).1 = st2 := by rw [hawp]
      have hrr2 : rr2 = some rl0 := by
        rw [hawp] at hrl0
        exact hrl0
      subst hrr2
      obtain ⟨hfintr, hfindone, hfinres, hfinerr, hfinlog, hfinok⟩ :=
        awaitAll_ok (graphOf tasks) (sched i futs0) st1 [] rl0 (by rw [hawp])
      rw [hst2] at hfintr hfindone hfinres hfinerr hfinlog
      have hcsperm : ((sched i futs0).map Prod.fst).Perm ready := by
        rw [← hnames2]
        exact (hv i futs0).map Prod.fst
      have hcslen : ((sched i futs0).map Prod.fst).length = ready.length := hcsperm.length_eq
      have hst2done : st2.done = st.done ++ (sched i futs0).map Prod.fst := by
        rw [hfindone, hsubdone]
      have hst2err : st2.err = none := by rw [hfinerr, hsuberr, herr]
      have hst2res : st2.results =
          st.results ++ (sched i futs0).map (fun p => (p.1, okVal p.2)) := by
        rw [hfinres, hsubres]
      have hst2log : st2.readyLog = st.readyLog ++ [ready] := by rw [hfinlog, hsublog]
      have hst2tr : st2.trace = st.trace ++
          (Ev.drain :: (ready.map Ev.sub ++ (((sched i futs0).map Prod.fst).map Ev.fin))) := by
        rw [hfintr, hsubtr]
        simp
      have hndcs : (st1.done ++ (sched i futs0).map Prod.fst).Nodup := by
        rw [hsubdone]
        exact (List.Perm.append_left st.done hcsperm).nodup_iff.mpr hnd
      have hcsdeps : ∀ x ∈ (sched i futs0).map Prod.fst,
          ∀ d ∈ depsOf (graphOf tasks) x, d ∈ st1.done := by
        simp only [hsubdone]
        intro x hx
        exact hready x (hcsperm.subset hx)
      have hchar := fun s => awaitAll_ready_mem (graphOf tasks) hkeys (sched i futs0) st1 []
        rl0 s (by rw [hawp]) hndcs hcsdeps
      simp only [hsubdone] at hchar
      have hrlnodup : rl0.Nodup :=
        awaitAll_ready_nodup (graphOf tasks) hkeys (sched i futs0) st1 [] rl0 (by rw [hawp])
          hndcs hcsdeps List.nodup_nil (by intro x hx; exact absurd hx (List.not_mem_nil x))
      have hD'nd : st2.done.Nodup := by
        rw [hst2done]
        exact (List.Perm.append_left st.done hcsperm).nodup_iff.mpr hnd
      have hrlD : ∀ s ∈ rl0, s ∉ st2.done := by
        intro s hs hsd
        rcases (hchar s).mp hs with h | h
        · exact absurd h (List.not_mem_nil s)
        · refine h.2.1 ?_
          rw [← hst2done]
          exact hsd
      have hrlkey : ∀ s ∈ rl0, s ∈ (graphOf tasks).map Prod.fst := by
        intro s hs
        rcases (hchar s).mp hs with h | h
        · exact absurd h (List.not_mem_nil s)
        · exact h.1
      have hrldeps : ∀ s ∈ rl0, ∀ d ∈ depsOf (graphOf tasks) s, d ∈ st2.done := by
        intro s hs
        rcases (hchar s).mp hs with h | h
        · exact absurd h (List.not_mem_nil s)
        · intro d hd
          rw [hst2done]
          exact h.2.2.1 d hd
      have inv_fuel : (nodesOf (graphOf tasks)).length + 1 ≤ fuel + st2.done.length := by
        rw [hst2done, List.length_append, hcslen]
        have hlp : 0 < ready.length := List.length_pos.mpr hr
        omega
      have inv_nd : (st2.done ++ rl0).Nodup := by
        rw [List.nodup_append]
        exact ⟨hD'nd, hrlnodup, fun a ha hb => hrlD a hb ha⟩
      have inv_sub : ∀ x ∈ st2.done ++ rl0, x ∈ nodesOf (graphOf tasks) := by
        intro x hx
        rcases List.mem_append.mp hx with hx | hx
        · rw [hst2done] at hx
          rcases List.mem_append.mp hx with hx | hx
          · exact hsub x (List.mem_append.mpr (Or.inl hx))
          · exact hsub x (List.mem_append.mpr (Or.inr (hcsperm.subset hx)))
        · obtain ⟨p, hp, hps⟩ := List.mem_map.mp (hrlkey x hx)
          exact hps ▸ key_mem_nodesOf hp
      have inv_Ddeps : ∀ x ∈ st2.done, ∀ d ∈ depsOf (graphOf tasks) x, d ∈ st2.done := by
        intro x hx d hd
        rw [hst2done] at hx ⊢
        rcases List.mem_append.mp hx with hx | hx
        · exact List.mem_append.mpr (Or.inl (hDdeps x hx d hd))
        · exact List.mem_append.mpr (Or.inl (hready x (hcsperm.subset hx) d hd))
      have inv_closed : ∀ s ∈ nodesOf (graphOf tasks),
          (∀ d ∈ depsOf (graphOf tasks) s, d ∈ st2.done) → s ∈ st2.done ∨ s ∈ rl0 := by
        intro s hs hd
        by_cases hsd : s ∈ st2.done
        · exact Or.inl hsd
        · by_cases hdold : ∀ d ∈ depsOf (graphOf tasks) s, d ∈ st.done
          · exfalso
            rcases hclosed s hs hdold with h | h
            · exact hsd (by rw [hst2done]; exact List.mem_append.mpr (Or.inl h))
            · exact hsd (by
                rw [hst2done]
                exact List.mem_append.mpr (Or.inr (hcsperm.mem_iff.mpr h)))
          · refine Or.inr ((hchar s).mpr (Or.inr ⟨?_, ?_, ?_, hdold⟩))
            · push_neg at hdold
              obtain ⟨d, hdmem, _⟩ := hdold
              have hne : depsOf (graphOf tasks) s ≠ [] := fun he => by
                rw [he] at hdmem
                exact absurd hdmem (List.not_mem_nil d)
              obtain ⟨p, hp, hp1, _⟩ := depsOf_ne_nil_mem_key hne
              exact List.mem_map.mpr ⟨p, hp, hp1⟩
            · rw [← hst2done]
              exact hsd
            · intro d hdm
              rw [← hst2done]
              exact hd d hdm
      have inv_res : st2.results.map Prod.fst = st2.done := by
        rw [hst2res, hst2done, List.map_append, hres, List.map_map]
        have hcomp : (Prod.fst ∘ fun p : Name × Outcome => (p.1, okVal p.2)) = Prod.fst := by
          funext p
          rfl
        rw [hcomp]
      have inv_resv : ∀ p ∈ st2.results,
          ∃ t, byName tasks p.1 = some t ∧ t.action = Outcome.ok p.2 := by
        intro p hp
        rw [hst2res] at hp
        rcases List.mem_append.mp hp with hp | hp
        · exact hresv p hp
        · obtain ⟨q, hq, hqp⟩ := List.mem_map.mp hp
          have hq' : q ∈ futs0 := (hv i futs0).subset hq
          rw [hfutsnl] at hq'
          obtain ⟨t, hbt, hact⟩ := hnlact q hq'
          obtain ⟨v, hqv⟩ := hfinok q hq
          refine ⟨t, by rw [← hqp]; exact hbt, ?_⟩
          rw [← hqp]
          show t.action = Outcome.ok (okVal q.2)
          rw [← hact, hqv]
          rfl
      obtain ⟨c1, c2, c3, c4, c5, ⟨L', hlog', hlay'⟩, ⟨Δ', htr', hperm', hdone'⟩⟩ :=
        ih (i+1) rl0 st2 inv_fuel inv_nd inv_sub hrldeps inv_Ddeps inv_closed hst2err
          inv_res inv_resv
      have hm : runLoop tasks (graphOf tasks) sched (fuel+1) i ready st =
          (match awaitAll (graphOf tasks) (sched i futs0) st1 [] with
            | (st2, none) => st2
            | (st2, some newReady) =>
              runLoop tasks (graphOf tasks) sched fuel (i+1) newReady st2) := by
        simp only [runLoop]
        rw [if_neg hr, hsubp]
      have hL : runLoop tasks (graphOf tasks) sched (fuel+1) i ready st =
          runLoop tasks (graphOf tasks) sched fuel (i+1) rl0 st2 := by rw [hm, hawp]
      rw [hL]
      have hlevel : ∀ x, x ∈ levelFilter (graphOf tasks) st.done ↔ x ∈ ready := by
        intro x
        constructor
        · intro hx
          have hm' := levelFilter_mem.mp hx
          rcases hclosed x hm'.1 hm'.2.2 with h | h
          · exact absurd h hm'.2.1
          · exact h
        · intro hx
          exact levelFilter_mem.mpr ⟨hsub x (List.mem_append.mpr (Or.inr hx)), hdisj x hx,
            hready x hx⟩
      have hlevelne : levelFilter (graphOf tasks) st.done ≠ [] := by
        rcases List.exists_mem_of_ne_nil ready hr with ⟨a, ha⟩
        exact List.ne_nil_of_mem ((hlevel a).mpr ha)
      refine ⟨c1, c2, c3, c4, c5, ⟨ready :: L', ?_, ?_⟩,
        ⟨Ev.drain :: (ready.map Ev.sub ++ (((sched i futs0).map Prod.fst).map Ev.fin ++ Δ')),
          ?_, ?_, ?_⟩⟩
      · rw [hlog', hst2log]
        simp
      · intro k x
        rw [layersFrom, if_neg hlevelne]
        cases k with
        | zero =>
          show x ∈ ready ↔ x ∈ levelFilter (graphOf tasks) st.done
          exact (hlevel x).symm
        | succ k =>
          show x ∈ L'.getD k [] ↔ _
          rw [hlay' k x]
          have hcongr : layersFrom (graphOf tasks) fuel st2.done =
              layersFrom (graphOf tasks) fuel
                (st.done ++ levelFilter (graphOf tasks) st.done) := by
            refine layersFrom_congr (graphOf tasks) fuel _ _ ?_
            intro y
            rw [hst2done, List.mem_append, List.mem_append, hcsperm.mem_iff, hlevel y]
          rw [hcongr, List.getD_cons_succ]
      · rw [htr', hst2tr]
        simp
      · simp only [subsOf_cons_drain, finsOf_cons_drain, subsOf_append, finsOf_append,
          subsOf_map_sub, finsOf_map_sub, subsOf_map_fin, finsOf_map_fin, List.nil_append]
        exact List.Perm.append hcsperm.symm hperm'
      · rw [hdone', hst2done, finsOf_cons_drain, finsOf_append, finsOf_append,
          finsOf_map_sub, finsOf_map_fin, List.nil_append, List.append_assoc]

/-! ## Full-run consequences on valid, all-successful task sets -/

/-- Instantiation of the master invariant at the start of a run. -/
theorem run_complete_spec (tasks : List Task) (sched : Sched)
    (hknown : ∀ t ∈ tasks, ∀ d ∈ t.deps, d ∈ tasks.map (fun t => t.name))
    (hacyc : ∀ n, ¬ Relation.TransGen (depRel (graphOf tasks)) n n)
    (hok : ∀ t ∈ tasks, ∃ v, t.action = Outcome.ok v)
    (hv : validSched sched) :
    (run tasks sched).err = none ∧
    ((run tasks sched).done).Nodup ∧
    (∀ x, x ∈ (run tasks sched).done ↔ x ∈ tasks.map (fun t => t.name)) ∧
    (run tasks sched).results.map Prod.fst = (run tasks sched).done ∧
    (∀ p ∈ (run tasks sched).results,
      ∃ t, byName tasks p.1 = some t ∧ t.action = Outcome.ok p.2) ∧
    (∀ k x, x ∈ ((run tasks sched).readyLog.getD k []) ↔
      x ∈ ((kahnLayers (graphOf tasks)).getD k [])) ∧
    (subsOf (run tasks sched).trace).Perm ((run tasks sched).done) := by
  have hnc : hasCycle (graphOf tasks) = false :=
    (hasCycle_false_iff_acyclic (graphOf tasks)).mpr hacyc
  have hknown' : ∀ x ∈ nodesOf (graphOf tasks), x ∈ tasks.map (fun t => t.name) := by
    intro x hx
    obtain ⟨p, hp, hor⟩ := nodesOf_mem.mp hx
    obtain ⟨t, ht, h1, h2⟩ := graphOf_entry hp
    rcases hor with rfl | hdep
    · exact List.mem_map.mpr ⟨t, ht, h1.symm⟩
    · exact hknown t ht x (h2 ▸ hdep)
  have hnodesnames : ∀ x, x ∈ nodesOf (graphOf tasks) ↔ x ∈ tasks.map (fun t => t.name) :=
    fun x => ⟨fun hx => hknown' x hx, fun hx => names_mem_nodesOf hx⟩
  have hrun : run tasks sched = runLoop tasks (graphOf tasks) sched
      ((nodesOf (graphOf tasks)).length + 1) 0 (levelFilter (graphOf tasks) []) emptyRes := by
    simp [run, hnc]
  obtain ⟨c1, c2, c3, c4, c5, ⟨L, hlog, hlay⟩, ⟨Δ, htr, hperm, hdone⟩⟩ :=
    runLoop_complete tasks sched hv hnc hok hknown'
      ((nodesOf (graphOf tasks)).length + 1) 0 (levelFilter (graphOf tasks) []) emptyRes
      (by show _ ≤ _ + ([] : List Name).length; simp)
      (by show (([] : List Name) ++ levelFilter (graphOf tasks) []).Nodup
          rw [List.nil_append]
          exact levelFilter_nodup _ _)
      (by intro x hx
          rcases List.mem_append.mp hx with hx | hx
          · exact absurd hx (List.not_mem_nil x)
          · exact (levelFilter_mem.mp hx).1)
      (by intro r hr d hd
          exact (levelFilter_mem.mp hr).2.2 d hd)
      (by intro x hx; exact absurd hx (List.not_mem_nil x))
      (by intro s hs hd
          exact Or.inr (levelFilter_mem.mpr ⟨hs, List.not_mem_nil s, hd⟩))
      rfl rfl
      (by intro p hp; exact absurd hp (List.not_mem_nil p))
  rw [hrun]
  refine ⟨c1, c2, fun x => (c3 x).trans (hnodesnames x), c4, c5, ?_, ?_⟩
  · intro k x
    have hlogL : (runLoop tasks (graphOf tasks) sched ((nodesOf (graphOf tasks)).length + 1) 0
        (levelFilter (graphOf tasks) []) emptyRes).readyLog = L := by
      rw [hlog]
      show [] ++ L = L
      rw [List.nil_append]
    rw [hlogL]
    exact hlay k x
  · have htr' : (runLoop tasks (graphOf tasks) sched ((nodesOf (graphOf tasks)).length + 1) 0
        (levelFilter (graphOf tasks) []) emptyRes).trace = Δ := by
      rw [htr]
      show [] ++ Δ = Δ
      rw [List.nil_append]
    have hdone' : (runLoop tasks (graphOf tasks) sched ((nodesOf (graphOf tasks)).length + 1) 0
        (levelFilter (graphOf tasks) []) emptyRes).done = finsOf Δ := by
      rw [hdone]
      show [] ++ finsOf Δ = finsOf Δ
      rw [List.nil_append]
    rw [htr', hdone']
    exact hperm

/-- C5: on an acyclic task set with unique names, declared dependencies
and all-successful actions, every task's action is submitted exactly once
and the returned results dictionary has exactly one entry per declared
task, keyed by the task's name. -/
theorem all_ok_runs_every_task_once (tasks : List Task) (sched : Sched)
    (hnames : (tasks.map (fun t => t.name)).Nodup)
    (hknown : ∀ t ∈ tasks, ∀ d ∈ t.deps, d ∈ tasks.map (fun t => t.name))
    (hacyc : ∀ n, ¬ Relation.TransGen (depRel (graphOf tasks)) n n)
    (hok : ∀ t ∈ tasks, ∃ v, t.action = Outcome.ok v)
    (hv : validSched sched) :
    (run tasks sched).err = none ∧
      ((run tasks sched).results.map Prod.fst).Perm (tasks.map (fun t => t.name)) ∧
      (subsOf (run tasks sched).trace).Perm (tasks.map (fun t => t.name)) := by
  obtain ⟨c1, c2, c3, c4, _, _, c7⟩ := run_complete_spec tasks sched hknown hacyc hok hv
  have hdperm : ((run tasks sched).done).Perm (tasks.map (fun t => t.name)) := by
    refine (c2.subperm ?_).antisymm (hnames.subperm ?_)
    · exact fun x hx => (c3 x).mp hx
    · exact fun x hx => (c3 x).mpr hx
  exact ⟨c1, c4 ▸ hdperm, c7.trans hdperm⟩

theorem all_ok_runs_every_task_once_witness :
    (run chainTasks (fun _ l => l)).err = none ∧
      ((run chainTasks (fun _ l => l)).results.map Prod.fst).Perm
        (chainTasks.map (fun t => t.name)) ∧
      (subsOf (run chainTasks (fun _ l => l)).trace).Perm
        (chainTasks.map (fun t => t.name)) :=
  all_ok_runs_every_task_once chainTasks (fun _ l => l) (by decide) (by decide)
    ((hasCycle_false_iff_acyclic (graphOf chainTasks)).mp (by decide))
    (by intro t ht
        fin_cases ht
        exacts [⟨1, rfl⟩, ⟨2, rfl⟩])
    (fun _ l => List.Perm.refl l)

/-- The value `lookupRes` finds is the canonical one determined by
`by_name` alone. -/
theorem lookupRes_canon (tasks : List Task) (rs : List (Name × Nat))
    (hval : ∀ p ∈ rs, ∃ t, byName tasks p.1 = some t ∧ t.action = Outcome.ok p.2)
    (hmem : ∀ n, n ∈ rs.map Prod.fst ↔ n ∈ tasks.map (fun t => t.name)) :
    ∀ n, lookupRes rs n = canonRes tasks n := by
  intro n
  unfold lookupRes
  cases hf : rs.find? (fun p => decide (p.1 = n)) with
  | none =>
    have hnn : n ∉ tasks.map (fun t => t.name) := by
      intro hmem'
      obtain ⟨p, hp, hpn⟩ := List.mem_map.mp ((hmem n).mpr hmem')
      have := List.find?_eq_none.mp hf p hp
      simp [hpn] at this
    unfold canonRes
    rw [byName_eq_none.mpr hnn]
    rfl
  | some p =>
    have hp := List.mem_of_find?_eq_some hf
    have hpn : p.1 = n := by simpa using List.find?_some hf
    obtain ⟨t, hbt, hact⟩ := hval p hp
    have hcr : canonRes tasks n = some p.2 := by
      rw [← hpn]
      unfold canonRes
      rw [hbt]
      show (match t.action with
        | Outcome.ok v => some v
        | Outcome.fail _ => none) = some p.2
      rw [hact]
    rw [hcr]
    rfl

/-- C10: with deterministic all-successful actions on a valid acyclic task
set, the results mapping is the same function of task names under any two
realizable completion schedules, and the successive ready sets drained by
the loop are exactly the canonical Kahn layers of the graph — each batch
is the set of tasks whose dependencies all lie in earlier batches —
independent of completion timing. -/
theorem schedule_independent_results_and_batches (tasks : List Task)
    (sched₁ sched₂ : Sched)
    (hknown : ∀ t ∈ tasks, ∀ d ∈ t.deps, d ∈ tasks.map (fun t => t.name))
    (hacyc : ∀ n, ¬ Relation.TransGen (depRel (graphOf tasks)) n n)
    (hok : ∀ t ∈ tasks, ∃ v, t.action = Outcome.ok v)
    (hv₁ : validSched sched₁) (hv₂ : validSched sched₂) :
    (∀ n, lookupRes (run tasks sched₁).results n =
      lookupRes (run tasks sched₂).results n) ∧
    (∀ k x, x ∈ ((run tasks sched₁).readyLog.getD k []) ↔
      x ∈ ((kahnLayers (graphOf tasks)).getD k [])) := by
  obtain ⟨_, _, hmem₁, hkeys₁, hval₁, hlog₁, _⟩ :=
    run_complete_spec tasks sched₁ hknown hacyc hok hv₁
  obtain ⟨_, _, hmem₂, hkeys₂, hval₂, _, _⟩ :=
    run_complete_spec tasks sched₂ hknown hacyc hok hv₂
  refine ⟨?_, hlog₁⟩
  intro n
  rw [lookupRes_canon tasks _ hval₁ (by intro m; rw [hkeys₁]; exact hmem₁ m),
    lookupRes_canon tasks _ hval₂ (by intro m; rw [hkeys₂]; exact hmem₂ m)]

theorem schedule_independent_results_and_batches_witness :
    lookupRes (run c10tasks (fun _ l => l)).results "C" =
      lookupRes (run c10tasks (fun _ l => l.reverse)).results "C" ∧
    ("C" ∈ ((run c10tasks (fun _ l => l)).readyLog.getD 1 []) ↔
      "C" ∈ ((kahnLayers (graphOf c10tasks)).getD 1 [])) :=
  ⟨(schedule_independent_results_and_batches c10tasks (fun _ l => l)
      (fun _ l => l.reverse) (by decide)
      ((hasCycle_false_iff_acyclic (graphOf c10tasks)).mp (by decide))
      (by intro t ht
          fin_cases ht
          exacts [⟨1, rfl⟩, ⟨2, rfl⟩, ⟨3, rfl⟩])
      (fun _ l => List.Perm.refl l) (fun _ l => List.reverse_perm l)).1 "C",
    (schedule_independent_results_and_batches c10tasks (fun _ l => l)
      (fun _ l => l.reverse) (by decide)
      ((hasCycle_false_iff_acyclic (graphOf c10tasks)).mp (by decide))
      (by intro t ht
          fin_cases ht
          exacts [⟨1, rfl⟩, ⟨2, rfl⟩, ⟨3, rfl⟩])
      (fun _ l => List.Perm.refl l) (fun _ l => List.reverse_perm l)).2 1 "C"⟩

end TaskRunner
